import Mathlib

/-!
Verification development for the Unito font merger (`src/unito/merger.py`,
`build/lib/unito/exclude.py`).  The font-file library (fontTools) is an
external collaborator; fonts are modelled by the data the merger reads and
writes: units-per-em, glyph order, codepoint table, per-glyph outline and
metric data.  Python dictionaries are modelled as association lists with
update-in-place-or-append semantics, Python sets as membership-queried lists,
and the Unicode data providers (`unicodedata.script`,
`unicodedata2.name/category`) as function parameters.
-/

namespace Unito

/-- First-match association-list lookup (Python `dict[k]` / `k in dict`). -/
def dget {κ α : Type} [DecidableEq κ] : List (κ × α) → κ → Option α
  | [], _ => none
  | (k, v) :: rest, k' => if k = k' then some v else dget rest k'

/-- Python `dict[k] = v`: update the existing key in place, else append. -/
def dset {κ α : Type} [DecidableEq κ] (k : κ) (v : α) : List (κ × α) → List (κ × α)
  | [] => [(k, v)]
  | (k', v') :: rest => if k' = k then (k, v) :: rest else (k', v') :: dset k v rest

/-- Python `set.add`: append if not already present (membership-only model). -/
def setAdd {α : Type} [DecidableEq α] (l : List α) (a : α) : List α :=
  if a ∈ l then l else l ++ [a]

/-- Python `set.update`: add every element of the second list. -/
def setUnion {α : Type} [DecidableEq α] (l : List α) (m : List α) : List α :=
  m.foldl setAdd l

/-- Python `min` over a nonempty collection of codepoints (0 for empty). -/
def listMin : List Nat → Nat
  | [] => 0
  | x :: xs => xs.foldl Nat.min x

/-- Decimal digit character. -/
def digitChar (d : Nat) : Char := Char.ofNat (48 + d)

/-- Big-endian decimal digits (fuelled to keep the recursion structural and
kernel-computable); `[]` for zero. -/
def natDigitsAux : Nat → Nat → List Char
  | 0, _ => []
  | fuel + 1, n => if n = 0 then [] else natDigitsAux fuel (n / 10) ++ [digitChar (n % 10)]

/-- Big-endian decimal digits of a positive number; `[]` for zero. -/
def natDigits (n : Nat) : List Char := natDigitsAux n n

/-- Python `str(n)` for a natural number. -/
def natRepr (n : Nat) : String :=
  if n = 0 then "0" else ⟨natDigits n⟩

/-- Uppercase hexadecimal digit character (Python `"%X"`). -/
def hexDigitChar (d : Nat) : Char :=
  if d < 10 then Char.ofNat (48 + d) else Char.ofNat (55 + d)

/-- Big-endian uppercase hexadecimal digits (fuelled to keep the recursion
structural and kernel-computable); `[]` for zero. -/
def hexDigitsAux : Nat → Nat → List Char
  | 0, _ => []
  | fuel + 1, n => if n = 0 then [] else hexDigitsAux fuel (n / 16) ++ [hexDigitChar (n % 16)]

/-- Big-endian uppercase hexadecimal digits; `[]` for zero. -/
def hexDigits (n : Nat) : List Char := hexDigitsAux n n

/-- Python `f"{n:0wX}"`: uppercase hex, zero-padded on the left to width `w`
(longer values are kept whole, never truncated). -/
def pyHexPad (n w : Nat) : String :=
  ⟨List.replicate (w - (hexDigits n).length) '0' ++ hexDigits n⟩

/-- Model of the collision-avoidance `while name in taken: name = cand(i); i += 1`
loops in `merger.py`: return the first candidate (in index order, starting at
`i`) that is not taken; `fuel` bounds the search (the loops in the source are
always run with pairwise-distinct candidates, so `taken.length + 1` fuel
suffices to find a free name). -/
def findFreeNameAux (cand : Nat → String) (taken : List String) : Nat → Nat → String
  | fuel, i =>
    if cand i ∈ taken then
      match fuel with
      | 0 => cand i
      | f + 1 => findFreeNameAux cand taken f (i + 1)
    else cand i

/-- The name chosen by a collision-avoidance loop of `merger.py`. -/
def findFreeName (cand : Nat → String) (taken : List String) : String :=
  findFreeNameAux cand taken (taken.length + 1) 0

/-- `is_power_of_two` from `merger.py`: `n > 0 and (n & (n - 1)) == 0`. -/
def is_power_of_two (n : Int) : Bool :=
  decide (0 < n) && (n.toNat &&& (n.toNat - 1) == 0)

/-- Fuelled (kernel-computable) floor base-2 logarithm; agrees with
`Nat.log2` when the fuel is at least `n`. -/
def log2floorAux : Nat → Nat → Nat
  | 0, _ => 0
  | fuel + 1, n => if n < 2 then 0 else log2floorAux fuel (n / 2) + 1

/-- Floor base-2 logarithm (`Nat.log2`, made kernel-computable). -/
def log2floor (n : Nat) : Nat := log2floorAux n n

/-- Exact integer semantics of Python `round(math.log2 n)` for `n ≥ 1`:
the floor `k` of `log2 n`, bumped to `k+1` when `n` is closer (in log scale)
to `2^(k+1)`, i.e. when `n^2 ≥ 2^(2k+1)`.  Ties are impossible because
`2^(2k+1)` is never a perfect square. -/
def log2round (n : Nat) : Nat :=
  if n * n < 2 ^ (2 * log2floor n + 1) then log2floor n else log2floor n + 1

/-- `get_closest_power_of_two` from `merger.py`:
`1` for `n ≤ 0`, otherwise `2 ** round(math.log2(n))`. -/
def get_closest_power_of_two (n : Int) : Int :=
  if n ≤ 0 then 1 else ((2 ^ log2round n.toNat : Nat) : Int)

/-- A composite-glyph component reference (`fontTools` `GlyphComponent`):
referenced glyph name and integer offset. -/
structure ComponentRef where
  glyphName : String
  x : Int
  y : Int
deriving DecidableEq

/-- Per-glyph outline data (the parts of a `glyf`-table glyph the merger
reads and writes): outline point coordinates, bounding box, and composite
component references (empty for simple glyphs). -/
structure Glyph where
  coordinates : List (ℚ × ℚ)
  xMin : Int
  yMin : Int
  xMax : Int
  yMax : Int
  components : List ComponentRef
deriving DecidableEq

/-- Python `isComposite()`: a glyph is composite when it has components. -/
def Glyph.isComposite (g : Glyph) : Bool := !g.components.isEmpty

/-- A font, reduced to the data `merger.py` reads and writes: units-per-em
(`head.unitsPerEm`), the glyph order, the best codepoint→glyph-name table
(`getBestCmap`, a dict), the `glyf` table (absent for CFF fonts) and the
`hmtx` metrics (width, left-side bearing). -/
structure Font where
  upm : Int
  glyphOrder : List String
  cmap : List (Nat × String)
  glyf : Option (List (String × Glyph))
  hmtx : Option (List (String × (Int × Int)))
deriving DecidableEq

/-- `get_upm` from `merger.py` (the `head` table is part of the model). -/
def get_upm (font : Font) : Int := font.upm

/-- `get_unicode_to_glyph_map` from `merger.py`. -/
def get_unicode_to_glyph_map (font : Font) : List (Nat × String) := font.cmap

/-- `is_truetype_font` from `merger.py`: the font has a `glyf` table. -/
def is_truetype_font (font : Font) : Bool := font.glyf.isSome

/-- Python `int()` applied to an exact product: truncation toward zero. -/
def pyInt (q : ℚ) : Int := if 0 ≤ q then ⌊q⌋ else ⌈q⌉

/-- `scale_glyph` from `merger.py`: outline coordinates are multiplied by the
scale factor (kept exact, as Python keeps floats), bounding box and composite
offsets go through `int()`. -/
def scale_glyph (g : Glyph) (f : ℚ) : Glyph where
  coordinates := g.coordinates.map fun p => (p.1 * f, p.2 * f)
  xMin := pyInt ((g.xMin : ℚ) * f)
  yMin := pyInt ((g.yMin : ℚ) * f)
  xMax := pyInt ((g.xMax : ℚ) * f)
  yMax := pyInt ((g.yMax : ℚ) * f)
  components := g.components.map fun c =>
    { c with x := pyInt ((c.x : ℚ) * f), y := pyInt ((c.y : ℚ) * f) }

/-- `scale_font_upm` from `merger.py`.  The in-repo manual path is embedded
(`fontTools.ttLib.scaleUpem` is an external collaborator with the same
contract): no-op at equal UPM, otherwise every `glyf` glyph is scaled with
`scale_glyph`, `hmtx` entries are scaled through `int()`, and
`head.unitsPerEm` is set to the target. -/
def scale_font_upm (font : Font) (target_upm : Int) : Font :=
  if font.upm = target_upm then font
  else
    let f : ℚ := (target_upm : ℚ) / (font.upm : ℚ)
    { font with
      upm := target_upm
      glyf := font.glyf.map fun gl => gl.map fun e => (e.1, scale_glyph e.2 f)
      hmtx := font.hmtx.map fun m => m.map fun e =>
        (e.1, (pyInt ((e.2.1 : ℚ) * f), pyInt ((e.2.2 : ℚ) * f))) }

/-- The UPM-normalization step at the head of `merge_glyphs_from_font`
(merger.py lines 383–392): no rescale when the source UPM equals the target
UPM or the binary (closest power-of-two) UPM; rescale to the binary UPM when
the source UPM is a power of two; otherwise rescale directly to the target
UPM. -/
def normalizeSourceUpm (source : Font) (target_upm : Int) : Font :=
  let source_upm := get_upm source
  let binary_upm := get_closest_power_of_two target_upm
  if source_upm = target_upm ∨ source_upm = binary_upm then source
  else if is_power_of_two source_upm then scale_font_upm source binary_upm
  else scale_font_upm source target_upm

/-- The external Unicode data providers consumed by `merger.py`:
`script` models `fontTools.unicodedata.script` (`none` when the lookup raises
`ValueError`/`KeyError`), `valid` models `is_valid_unicode_character`
(assignment check backed by `unicodedata2`). -/
structure UnicodeEnv where
  script : Nat → Option String
  valid : Nat → Bool

/-- `is_excluded_codepoint` from `merger.py`: Han scripts (`Hani`, `Hans`,
`Hant`) are excluded when `exclude_hani`, Hangul (`Hang`) when
`exclude_hang`; lookup failure yields `False`. -/
def is_excluded_codepoint (env : UnicodeEnv) (codepoint : Nat)
    (exclude_hani exclude_hang : Bool) : Bool :=
  match env.script codepoint with
  | none => false
  | some s =>
    (exclude_hani && (s == "Hani" || s == "Hans" || s == "Hant")) ||
      (exclude_hang && s == "Hang")

/-- `synthesize_glyph_name` from `merger.py`: `uNNNN` (4 uppercase hex
digits) for codepoints up to `0xFFFF`, `uNNNNN` (zero-padded to 5) above. -/
def synthesize_glyph_name (codepoint : Nat) : String :=
  if codepoint ≤ 0xFFFF then "u" ++ pyHexPad codepoint 4
  else "u" ++ pyHexPad codepoint 5

/-- One step of `build_glyph_to_codepoints_map`:
`glyph_to_codepoints.setdefault(glyph_name, set()).add(codepoint)`. -/
def addGlyphCp (acc : List (String × List Nat)) (g : String) (cp : Nat) :
    List (String × List Nat) :=
  match acc with
  | [] => [(g, [cp])]
  | (g', cps) :: rest =>
    if g' = g then (g', setAdd cps cp) :: rest
    else (g', cps) :: addGlyphCp rest g cp

/-- `build_glyph_to_codepoints_map` from `merger.py`: invert the codepoint
table into glyph-name → codepoints, in first-seen glyph order. -/
def build_glyph_to_codepoints_map (font : Font) : List (String × List Nat) :=
  font.cmap.foldl (fun acc e => addGlyphCp acc e.2 e.1) []

/-- The `for component in glyph.components` loop of `get_component_glyphs`:
add each component name and then the names found by the recursive call
(passed in as `rec`); `none` propagates a recursion that failed to
terminate. -/
def getComponentsList (rec : String → Option (List String)) :
    List String → List String → Option (List String)
  | [], acc => some acc
  | c :: rest, acc =>
    match rec c with
    | none => none
    | some sub => getComponentsList rec rest (setUnion (setAdd acc c) sub)

/-- Fuelled model of the recursion in `get_component_glyphs` from
`merger.py` (the Python function recurses without a visited set, so it
diverges on cyclic component graphs): `none` means the recursion is still
running when the fuel runs out.  For a glyph whose reachable component graph
is acyclic the recursion depth is at most the number of `glyf` entries plus
one, so `glyf.length + 2` fuel decides divergence exactly. -/
def getComponentsFuel : Nat → List (String × Glyph) → String → Option (List String)
  | 0, _, _ => none
  | fuel + 1, glyf, glyph_name =>
    match dget glyf glyph_name with
    | none => some []
    | some g =>
      if g.isComposite then
        getComponentsList (fun c => getComponentsFuel fuel glyf c)
          (g.components.map (·.glyphName)) []
      else some []

/-- `get_component_glyphs` from `merger.py`, with fuel `glyf.length + 2`
(see `getComponentsFuel`: `some` exactly when the Python recursion
terminates, in which case the values agree). -/
def get_component_glyphs (font : Font) (glyph_name : String) :
    Option (List String) :=
  match font.glyf with
  | none => some []
  | some glyf => getComponentsFuel (glyf.length + 2) glyf glyph_name

/-- The component-reference rewrite loop of `copy_glyph` (merger.py lines
243–252): rename every component reference that has an entry in the name
map; coordinates, bounding box and component offsets are untouched. -/
def renameComponents (component_name_map : List (String × String)) (g : Glyph) : Glyph :=
  { g with
    components := g.components.map fun c =>
      match dget component_name_map c.glyphName with
      | some new_name => { c with glyphName := new_name }
      | none => c }

/-- `copy_glyph` from `merger.py`: copy outline data under the new name
(rewriting composite component references through `component_name_map`),
copy the `hmtx` entry when both fonts have metrics and the source has one,
and append the new name to the glyph order if absent.  `none` models the
Python `False` return (no `glyf` on either side, or the source glyph is
missing); `some` returns the updated target. -/
def copy_glyph (source_font target_font : Font)
    (source_glyph_name target_glyph_name : String)
    (component_name_map : List (String × String)) : Option Font :=
  match source_font.glyf, target_font.glyf with
  | some source_glyf, some target_glyf =>
    match dget source_glyf source_glyph_name with
    | none => none
    | some source_glyph =>
      let target_glyph := renameComponents component_name_map source_glyph
      let glyf' := dset target_glyph_name target_glyph target_glyf
      let hmtx' :=
        match source_font.hmtx, target_font.hmtx with
        | some sm, some tm =>
          match dget sm source_glyph_name with
          | some wl => some (dset target_glyph_name wl tm)
          | none => some tm
        | _, tm => tm
      let order :=
        if target_glyph_name ∈ target_font.glyphOrder then target_font.glyphOrder
        else target_font.glyphOrder ++ [target_glyph_name]
      some { target_font with glyf := some glyf', hmtx := hmtx', glyphOrder := order }
  | _, _ => none

/-- `add_cmap_entry` from `merger.py`: register a codepoint → glyph-name
mapping (all cmap subtables are modelled as the one consolidated table). -/
def add_cmap_entry (font : Font) (codepoint : Nat) (glyph_name : String) : Font :=
  { font with cmap := dset codepoint glyph_name font.cmap }

/-- `MAX_GLYPHS` from `merger.py`. -/
def MAX_GLYPHS : Nat := 65535

/-- One entry of the `glyphs_to_add` work list built by
`merge_glyphs_from_font`. -/
structure Planned where
  sourceName : String
  targetName : String
  codepoints : List Nat
deriving DecidableEq

/-- The codepoint filter of `merge_glyphs_from_font` (lines 407–415): keep a
codepoint when it is not already covered by the target, not excluded by
policy, and — unless merging the base font — assigned per
`is_valid_unicode_character`. -/
def survivingCodepoints (env : UnicodeEnv) (exclude_hani exclude_hang is_base_font : Bool)
    (covered : List Nat) (cps : List Nat) : List Nat :=
  cps.filter fun cp =>
    !covered.contains cp &&
    !is_excluded_codepoint env cp exclude_hani exclude_hang &&
    (is_base_font || env.valid cp)

/-- The candidate names tried for a supplement glyph: the synthesized name,
then `name.1`, `name.2`, … (merger.py lines 423–428). -/
def synthCand (codepoint : Nat) (i : Nat) : String :=
  if i = 0 then synthesize_glyph_name codepoint
  else synthesize_glyph_name codepoint ++ "." ++ natRepr i

/-- The candidate names tried for a copied component: the original name for
the base font, else `comp_<name>`, then `comp_<name>.1`, … (merger.py lines
458–462). -/
def compCand (is_base_font : Bool) (comp_name : String) (i : Nat) : String :=
  if i = 0 then if is_base_font then comp_name else "comp_" ++ comp_name
  else "comp_" ++ comp_name ++ "." ++ natRepr i

/-- The planning loop of `merge_glyphs_from_font` (lines 406–436): for each
source glyph, filter its codepoints; skip the glyph if none survive; name it
with its own name for the base font, else with a collision-extended
synthesized name from the smallest surviving codepoint. -/
def planGlyphs (env : UnicodeEnv) (exclude_hani exclude_hang is_base_font : Bool)
    (covered : List Nat) (target_glyphs : List String) :
    List (String × List Nat) → List Planned
  | [] => []
  | (source_glyph_name, cps) :: rest =>
    let new_codepoints :=
      survivingCodepoints env exclude_hani exclude_hang is_base_font covered cps
    if new_codepoints.isEmpty then
      planGlyphs env exclude_hani exclude_hang is_base_font covered target_glyphs rest
    else
      let target_glyph_name :=
        if is_base_font then source_glyph_name
        else findFreeName (synthCand (listMin new_codepoints)) target_glyphs
      ⟨source_glyph_name, target_glyph_name, new_codepoints⟩ ::
        planGlyphs env exclude_hani exclude_hang is_base_font covered target_glyphs rest

/-- The mutable state threaded through the copy loops of
`merge_glyphs_from_font` and `add_hani_by_frequency`: the accumulator font,
the used-name set, the covered-codepoint set, the source→target name map,
the two counters, and an instrumentation flag recording whether the
outer-loop ceiling check fired (`break`). -/
structure MergeState where
  target : Font
  targetGlyphs : List String
  covered : List Nat
  mapping : List (String × String)
  glyphsAdded : Nat
  codepointsAdded : Nat
  hitLimit : Bool
deriving DecidableEq

/-- The component-copy loop shared by `merge_glyphs_from_font` (lines
453–472) and `add_hani_by_frequency` (lines 651–670): each component not yet
present and not yet scheduled is copied (with no component renaming) under a
collision-extended name, subject to the per-copy ceiling check, which
`break`s out of this inner loop only. -/
def compLoop (source_font : Font) (is_base_font : Bool) (current_glyph_count : Nat) :
    List String → MergeState → MergeState
  | [], st => st
  | comp_name :: rest, st =>
    if comp_name ∈ st.targetGlyphs ∨ (dget st.mapping comp_name).isSome then
      compLoop source_font is_base_font current_glyph_count rest st
    else if MAX_GLYPHS ≤ current_glyph_count + st.glyphsAdded then st
    else
      let comp_target_name := findFreeName (compCand is_base_font comp_name) st.targetGlyphs
      match copy_glyph source_font st.target comp_name comp_target_name [] with
      | none => compLoop source_font is_base_font current_glyph_count rest st
      | some target' =>
        compLoop source_font is_base_font current_glyph_count rest
          { st with
            target := target'
            mapping := dset comp_name comp_target_name st.mapping
            targetGlyphs := setAdd st.targetGlyphs comp_target_name
            glyphsAdded := st.glyphsAdded + 1 }

/-- Codepoint registration after a successful primary copy
(merger.py lines 485–488). -/
def registerCodepoints (target_glyph_name : String) :
    List Nat → MergeState → MergeState
  | [], st => st
  | cp :: rest, st =>
    registerCodepoints target_glyph_name rest
      { st with
        target := add_cmap_entry st.target cp target_glyph_name
        codepointsAdded := st.codepointsAdded + 1
        covered := setAdd st.covered cp }

/-- The outer copy loop of `merge_glyphs_from_font` (lines 442–488): per
planned glyph, the ceiling check (`break`, recorded in `hitLimit`), the
component-closure copy, the primary copy through `copy_glyph` with the name
mapping built so far, and codepoint registration on success.  `none` models
the unbounded Python component recursion failing to terminate. -/
def copyLoop (source_font : Font) (is_base_font : Bool) (current_glyph_count : Nat) :
    List Planned → MergeState → Option MergeState
  | [], st => some st
  | gi :: rest, st =>
    if MAX_GLYPHS ≤ current_glyph_count + st.glyphsAdded then
      some { st with hitLimit := true }
    else
      match get_component_glyphs source_font gi.sourceName with
      | none => none
      | some components =>
        let st1 := compLoop source_font is_base_font current_glyph_count components st
        match copy_glyph source_font st1.target gi.sourceName gi.targetName st1.mapping with
        | none => copyLoop source_font is_base_font current_glyph_count rest st1
        | some target' =>
          let st2 :=
            registerCodepoints gi.targetName gi.codepoints
              { st1 with
                target := target'
                mapping := dset gi.sourceName gi.targetName st1.mapping
                targetGlyphs := setAdd st1.targetGlyphs gi.targetName
                glyphsAdded := st1.glyphsAdded + 1 }
          copyLoop source_font is_base_font current_glyph_count rest st2

/-- The result of one `merge_glyphs_from_font` call: the (possibly rescaled)
source, the updated target, the two counts the Python function returns, and
the `hitLimit` instrumentation flag from the copy loop. -/
structure MergeResult where
  source : Font
  target : Font
  glyphsAdded : Nat
  codepointsAdded : Nat
  hitLimit : Bool
deriving DecidableEq

/-- `merge_glyphs_from_font` from `merger.py`: skip non-TrueType sources,
normalize the source UPM, skip entirely at the ceiling, plan the glyph
delta, then run the copy loop.  `none` models a Python run that never
terminates (cyclic component graph). -/
def merge_glyphs_from_font (env : UnicodeEnv) (source_font target_font : Font)
    (exclude_hani exclude_hang is_base_font : Bool) : Option MergeResult :=
  if !is_truetype_font source_font then
    some ⟨source_font, target_font, 0, 0, false⟩
  else
    let source := normalizeSourceUpm source_font (get_upm target_font)
    let current_glyph_count := target_font.glyphOrder.length
    if MAX_GLYPHS ≤ current_glyph_count then
      some ⟨source, target_font, 0, 0, false⟩
    else
      let covered := (get_unicode_to_glyph_map target_font).map Prod.fst
      let target_glyphs := target_font.glyphOrder
      let glyphs_to_add :=
        planGlyphs env exclude_hani exclude_hang is_base_font covered target_glyphs
          (build_glyph_to_codepoints_map source)
      match copyLoop source is_base_font current_glyph_count glyphs_to_add
          ⟨target_font, target_glyphs, covered, [], 0, 0, false⟩ with
      | none => none
      | some st => some ⟨source, st.target, st.glyphsAdded, st.codepointsAdded, st.hitLimit⟩

/-- The inner loop of `build_hani_cmap`: add every cmap entry of one donor
font (identified by its index in the donor list) to the collective map,
skipping codepoints already claimed by an earlier entry. -/
def addFontCmap (idx : Nat) :
    List (Nat × String) → List (Nat × Nat × String) → List (Nat × Nat × String)
  | [], acc => acc
  | (cp, g) :: rest, acc =>
    addFontCmap idx rest (if (dget acc cp).isSome then acc else acc ++ [(cp, idx, g)])

/-- The donor-iteration loop of `build_hani_cmap`. -/
def buildHaniAux : List Font → Nat → List (Nat × Nat × String) → List (Nat × Nat × String)
  | [], _, acc => acc
  | f :: rest, idx, acc => buildHaniAux rest (idx + 1) (addFontCmap idx f.cmap acc)

/-- `build_hani_cmap` from `merger.py`: one collective codepoint →
(donor font, glyph name) map over the donor fonts in their given (sorted)
order, first-seen-wins.  Donor fonts are referenced by list index. -/
def build_hani_cmap (hani_fonts : List Font) : List (Nat × Nat × String) :=
  buildHaniAux hani_fonts 0 []

set_option linter.unusedVariables false in
/-- The per-character loop of `add_hani_by_frequency` (merger.py lines
631–690): stop at the ceiling, skip covered or unavailable codepoints, pick
the donor from the collective map, compute (but never apply) the scale
factor, choose a collision-extended synthesized name, copy the component
closure and then the glyph, and register the codepoint. -/
def haniLoop (hani_fonts : List Font) (collective_cmap : List (Nat × Nat × String))
    (target_upm : Int) (current_glyph_count : Nat) :
    List Nat → MergeState → Option MergeState
  | [], st => some st
  | codepoint :: rest, st =>
    if MAX_GLYPHS ≤ current_glyph_count + st.glyphsAdded then
      some { st with hitLimit := true }
    else if codepoint ∈ st.covered then
      haniLoop hani_fonts collective_cmap target_upm current_glyph_count rest st
    else
      match dget collective_cmap codepoint with
      | none => haniLoop hani_fonts collective_cmap target_upm current_glyph_count rest st
      | some (idx, source_glyph_name) =>
        match hani_fonts[idx]? with
        | none => haniLoop hani_fonts collective_cmap target_upm current_glyph_count rest st
        | some source_font =>
          let source_upm := get_upm source_font
          let scale_factor : ℚ :=
            if source_upm ≠ target_upm then (target_upm : ℚ) / (source_upm : ℚ) else 1
          let target_glyph_name := findFreeName (synthCand codepoint) st.targetGlyphs
          match get_component_glyphs source_font source_glyph_name with
          | none => none
          | some components =>
            let st1 := compLoop source_font false current_glyph_count components st
            match copy_glyph source_font st1.target source_glyph_name target_glyph_name
                st1.mapping with
            | none =>
              haniLoop hani_fonts collective_cmap target_upm current_glyph_count rest st1
            | some target' =>
              let st2 :=
                registerCodepoints target_glyph_name [codepoint]
                  { st1 with
                    target := target'
                    mapping := dset source_glyph_name target_glyph_name st1.mapping
                    targetGlyphs := setAdd st1.targetGlyphs target_glyph_name
                    glyphsAdded := st1.glyphsAdded + 1 }
              haniLoop hani_fonts collective_cmap target_upm current_glyph_count rest st2

/-- `add_hani_by_frequency` from `merger.py`: the donor fonts (already
loaded from `hani/`, in sorted order) and the rank list (the codepoints of
the `Hani.jsonl` frequency string, in order) are given; build the collective
cmap and run the injection loop.  Returns the updated target and the
(glyphs added, codepoints added) pair the Python function returns. -/
def add_hani_by_frequency (freq : List Nat) (hani_fonts : List Font)
    (target_font : Font) : Option (Font × Nat × Nat) :=
  let collective_cmap := build_hani_cmap hani_fonts
  let target_upm := get_upm target_font
  let current_glyph_count := target_font.glyphOrder.length
  match haniLoop hani_fonts collective_cmap target_upm current_glyph_count freq
      ⟨target_font, target_font.glyphOrder,
        (get_unicode_to_glyph_map target_font).map Prod.fst, [], 0, 0, false⟩ with
  | none => none
  | some st => some (st.target, st.glyphsAdded, st.codepointsAdded)

/-- `HAN_RANGES` from `exclude.py` (inclusive block ranges). -/
def HAN_RANGES : List (Nat × Nat) :=
  [(0x4E00, 0x9FFF), (0x3400, 0x4DBF), (0x20000, 0x2A6DF), (0x2A700, 0x2B73F),
   (0x2B740, 0x2B81F), (0x2B820, 0x2CEAF), (0x2CEB0, 0x2EBEF), (0x30000, 0x3134F),
   (0x31350, 0x323AF), (0x2EBF0, 0x2EE5F), (0xF900, 0xFAFF), (0x2F800, 0x2FA1F)]

/-- `TANGUT_RANGES` from `exclude.py`. -/
def TANGUT_RANGES : List (Nat × Nat) :=
  [(0x17000, 0x187FF), (0x18800, 0x18AFF), (0x18D00, 0x18D7F)]

/-- `HANGUL_RANGES` from `exclude.py`. -/
def HANGUL_RANGES : List (Nat × Nat) :=
  [(0xAC00, 0xD7AF), (0x1100, 0x11FF), (0x3130, 0x318F), (0xA960, 0xA97F),
   (0xD7B0, 0xD7FF)]

/-- `is_in_han_range` from `exclude.py`. -/
def is_in_han_range (cp : Nat) : Bool :=
  HAN_RANGES.any fun r => r.1 ≤ cp && cp ≤ r.2

/-- `is_in_tangut_range` from `exclude.py`. -/
def is_in_tangut_range (cp : Nat) : Bool :=
  TANGUT_RANGES.any fun r => r.1 ≤ cp && cp ≤ r.2

/-- `is_in_hangul_range` from `exclude.py`. -/
def is_in_hangul_range (cp : Nat) : Bool :=
  HANGUL_RANGES.any fun r => r.1 ≤ cp && cp ≤ r.2

/-- `is_han_script` from `exclude.py`: script-property detection (the
`script` provider is a parameter; `none` models a raised lookup error)
falling through to the block-range check. -/
def is_han_script (script : Nat → Option String) (cp : Nat) : Bool :=
  (match script cp with
   | some s => s == "Han" || s == "Hani"
   | none => false) ||
  is_in_han_range cp

/-- `is_hangul_script` from `exclude.py`. -/
def is_hangul_script (script : Nat → Option String) (cp : Nat) : Bool :=
  (match script cp with
   | some s => s == "Hangul" || s == "Hang"
   | none => false) ||
  is_in_hangul_range cp

/-- `is_tangut_script` from `exclude.py`. -/
def is_tangut_script (script : Nat → Option String) (cp : Nat) : Bool :=
  (match script cp with
   | some s => s == "Tangut" || s == "Tang"
   | none => false) ||
  is_in_tangut_range cp

/-- `should_exclude_codepoint` from `exclude.py`: extra excludes first, then
each enabled script's detector. -/
def should_exclude_codepoint (script : Nat → Option String) (cp : Nat)
    (exclude_hani exclude_hang exclude_tang : Bool)
    (extra_excludes : List Nat) : Bool :=
  if extra_excludes.contains cp then true
  else if exclude_hani && is_han_script script cp then true
  else if exclude_hang && is_hangul_script script cp then true
  else if exclude_tang && is_tangut_script script cp then true
  else false

theorem dget_dset {κ α : Type} [DecidableEq κ] (k k' : κ) (v : α)
    (l : List (κ × α)) :
    dget (dset k v l) k' = if k = k' then some v else dget l k' := by
  induction l with
  | nil => simp [dset, dget]
  | cons hd tl ih =>
    obtain ⟨k0, v0⟩ := hd
    by_cases h0 : k0 = k
    · subst h0
      by_cases h1 : k0 = k'
      · subst h1; simp [dset, dget]
      · simp [dset, dget, h1]
    · by_cases h1 : k0 = k'
      · subst h1
        have h0' : ¬k = k0 := fun h => h0 h.symm
        simp [dset, dget, h0, h0']
      · simp [dset, dget, h0, h1, ih]

/-- Keys present before a `dset` are still present after it. -/
theorem dget_dset_isSome {κ α : Type} [DecidableEq κ] (k k' : κ) (v : α)
    (l : List (κ × α)) (h : (dget l k').isSome) :
    (dget (dset k v l) k').isSome := by
  rw [dget_dset]
  by_cases hk : k = k' <;> simp [hk, h]

/-- A Unicode environment in which every script lookup raises and every
codepoint counts as assigned (concrete test input). -/
def envTrivial : UnicodeEnv := ⟨fun _ => none, fun _ => true⟩

/-- A simple test glyph with one outline point (concrete test input). -/
def simpleGlyph : Glyph := ⟨[(1, 2)], 0, 0, 10, 10, []⟩

/-- A CFF (no `glyf` table) source font (concrete test input). -/
def cffFont : Font := ⟨1000, [".notdef"], [(65, "A")], none, some []⟩

/-- A minimal TrueType target font (concrete test input). -/
def tinyTarget : Font := ⟨1000, [".notdef"], [], some [], some []⟩

/-- C7: merging a source font without TrueType outline data returns `(0, 0)`
and leaves the target font (glyph order, codepoint table, glyph data)
completely unchanged. -/
theorem merge_skips_non_truetype (env : UnicodeEnv) (source_font target_font : Font)
    (exclude_hani exclude_hang is_base_font : Bool)
    (h : source_font.glyf = none) :
    merge_glyphs_from_font env source_font target_font exclude_hani exclude_hang
        is_base_font =
      some ⟨source_font, target_font, 0, 0, false⟩ := by
  simp [merge_glyphs_from_font, is_truetype_font, h]

/-- Witness for C7 at a concrete CFF source font. -/
theorem merge_skips_non_truetype_witness :
    merge_glyphs_from_font envTrivial cffFont tinyTarget true true false =
      some ⟨cffFont, tinyTarget, 0, 0, false⟩ :=
  merge_skips_non_truetype envTrivial cffFont tinyTarget true true false rfl

/-- A glyph whose component graph is a self-loop (concrete test input). -/
def cyclicGlyph : Glyph := ⟨[], 0, 0, 0, 0, [⟨"A", 0, 0⟩]⟩

/-- A font whose glyph `A` references itself as a component
(concrete test input). -/
def cyclicFont : Font := ⟨1000, [".notdef", "A"], [], some [("A", cyclicGlyph)], some []⟩

/-- C4: `get_component_glyphs` does NOT terminate on a cyclic component
graph — the Python recursion has no visited set, so on the self-referential
glyph `A` the recursion is still running whatever the fuel
(a `RecursionError` in Python), contradicting the claim. -/
theorem get_component_glyphs_diverges_on_cycle :
    (∀ fuel, getComponentsFuel fuel [("A", cyclicGlyph)] "A" = none) ∧
      get_component_glyphs cyclicFont "A" = none := by
  have h : ∀ fuel, getComponentsFuel fuel [("A", cyclicGlyph)] "A" = none := by
    intro fuel
    induction fuel with
    | zero => simp [getComponentsFuel]
    | succ f ih =>
      have hd : dget [("A", cyclicGlyph)] "A" = some cyclicGlyph := rfl
      have hc : cyclicGlyph.isComposite = true := rfl
      have hm : cyclicGlyph.components.map (·.glyphName) = ["A"] := rfl
      simp [getComponentsFuel, hd, hc, hm, getComponentsList, ih]
  exact ⟨h, by simp [get_component_glyphs, cyclicFont, h]⟩

theorem log2floorAux_eq_log2 (fuel n : Nat) (h : n ≤ fuel) :
    log2floorAux fuel n = Nat.log2 n := by
  induction fuel generalizing n with
  | zero =>
    have : n = 0 := by omega
    subst this
    rw [Nat.log2]
    rfl
  | succ f ih =>
    rw [log2floorAux, Nat.log2]
    by_cases h2 : n < 2
    · have h3 : ¬n ≥ 2 := by omega
      simp [h2, h3]
    · have h3 : n ≥ 2 := by omega
      have hf : n / 2 ≤ f := by omega
      simp [h2, h3, ih _ hf]

theorem log2floor_eq_log2 (n : Nat) : log2floor n = Nat.log2 n :=
  log2floorAux_eq_log2 n n le_rfl

theorem pow_two_land_pred (k : Nat) : 2 ^ k &&& (2 ^ k - 1) = 0 := by
  apply Nat.eq_of_testBit_eq
  intro i
  rw [Nat.testBit_land, Nat.zero_testBit, Nat.testBit_two_pow_sub_one]
  by_cases h : i = k
  · subst h; simp
  · simp [Nat.testBit_two_pow_of_ne (Ne.symm h)]

theorem land_pred_eq_zero_pow :
    ∀ m, 0 < m → m &&& (m - 1) = 0 → ∃ k, m = 2 ^ k := by
  intro m
  induction m using Nat.strong_induction_on with
  | _ m ih =>
    intro hm h
    rcases Nat.even_or_odd m with he | ho
    · obtain ⟨q, hq⟩ := he
      have hq2 : m = 2 * q := by omega
      have hqpos : 0 < q := by omega
      have hz : q &&& (q - 1) = 0 := by
        apply Nat.eq_of_testBit_eq
        intro i
        have e1 : m / 2 = q := by omega
        have e2 : (m - 1) / 2 = q - 1 := by omega
        have h1 : (q &&& (q - 1)).testBit i = (m &&& (m - 1)).testBit (i + 1) := by
          rw [Nat.testBit_land, Nat.testBit_land, Nat.testBit_add_one,
            Nat.testBit_add_one, e1, e2]
        rw [h1, h, Nat.zero_testBit, Nat.zero_testBit]
      obtain ⟨k, hk⟩ := ih q (by omega) hqpos hz
      refine ⟨k + 1, ?_⟩
      rw [hq2, hk, pow_succ]
      ring
    · obtain ⟨q, hq⟩ := ho
      by_cases hq0 : q = 0
      · exact ⟨0, by omega⟩
      · exfalso
        have hzq : ∀ i, q.testBit i = false := by
          intro i
          have e1 : m / 2 = q := by omega
          have e2 : (m - 1) / 2 = q := by omega
          have h1 : q.testBit i = (m &&& (m - 1)).testBit (i + 1) := by
            rw [Nat.testBit_land, Nat.testBit_add_one, Nat.testBit_add_one, e1, e2,
              Bool.and_self]
          rw [h1, h, Nat.zero_testBit]
        exact hq0 (Nat.eq_of_testBit_eq fun i => by rw [hzq i, Nat.zero_testBit])

/-- The bit trick in `is_power_of_two` is correct: it accepts exactly the
(positive) powers of two. -/
theorem is_power_of_two_iff (n : Int) :
    is_power_of_two n = true ↔ ∃ k : Nat, n = 2 ^ k := by
  unfold is_power_of_two
  rw [Bool.and_eq_true, decide_eq_true_iff, beq_iff_eq]
  constructor
  · rintro ⟨hpos, hland⟩
    have hnat : 0 < n.toNat := by omega
    obtain ⟨k, hk⟩ := land_pred_eq_zero_pow n.toNat hnat hland
    refine ⟨k, ?_⟩
    have : (n.toNat : Int) = n := Int.toNat_of_nonneg (le_of_lt hpos)
    rw [← this, hk]
    push_cast
    ring
  · rintro ⟨k, rfl⟩
    have he : ((2 : Int) ^ k).toNat = 2 ^ k := by
      have : (2 : Int) ^ k = ((2 ^ k : Nat) : Int) := by push_cast; ring
      rw [this, Int.toNat_natCast]
    refine ⟨by positivity, ?_⟩
    rw [he]
    exact pow_two_land_pred k

theorem square_ne_two_pow_odd (m k : Nat) : m * m ≠ 2 ^ (2 * k + 1) := by
  intro h
  have hm : m ∣ 2 ^ (2 * k + 1) := h ▸ dvd_mul_right m m
  obtain ⟨j, _, hjm⟩ := (Nat.dvd_prime_pow Nat.prime_two).mp hm
  subst hjm
  rw [← pow_add] at h
  have := Nat.pow_right_injective (le_refl 2) h
  omega

/-- `log2round n` is the integer nearest to `log2 n` (for `n ≥ 1`): the
two-sided strict bound `2^(2k) < 2 n^2 ∧ n^2 < 2^(2k+1)` says exactly
`k - 1/2 < log2 n < k + 1/2`. -/
theorem log2round_spec (n : Nat) (hn : 0 < n) :
    2 ^ (2 * log2round n) < 2 * (n * n) ∧ n * n < 2 ^ (2 * log2round n + 1) := by
  unfold log2round
  rw [log2floor_eq_log2]
  have hle : 2 ^ Nat.log2 n ≤ n := Nat.log2_self_le (by omega)
  have hlt : n < 2 ^ (Nat.log2 n + 1) := Nat.lt_log2_self
  set k := Nat.log2 n with hk
  by_cases hc : n * n < 2 ^ (2 * k + 1)
  · rw [if_pos hc]
    refine ⟨?_, hc⟩
    have h1 : 2 ^ (2 * k) ≤ n * n := by
      have : 2 ^ (2 * k) = 2 ^ k * 2 ^ k := by rw [two_mul, pow_add]
      rw [this]
      exact Nat.mul_le_mul hle hle
    have h2 : 0 < n * n := Nat.mul_pos hn hn
    omega
  · rw [if_neg hc]
    push_neg at hc
    have hne : n * n ≠ 2 ^ (2 * k + 1) := square_ne_two_pow_odd n k
    have h1 : 2 ^ (2 * k + 1) < n * n := lt_of_le_of_ne hc (Ne.symm hne)
    constructor
    · have e : 2 * (k + 1) = (2 * k + 1) + 1 := by ring
      rw [e, pow_succ]
      omega
    · have h2 : n * n < 2 ^ (k + 1) * 2 ^ (k + 1) :=
        Nat.mul_lt_mul_of_lt_of_lt hlt hlt
      have h3 : 2 ^ (k + 1) * 2 ^ (k + 1) = 2 ^ (2 * k + 2) := by
        rw [← pow_add]; ring_nf
      have h4 : (2 : Nat) ^ (2 * k + 2) ≤ 2 ^ (2 * (k + 1) + 1) :=
        Nat.pow_le_pow_right (by norm_num) (by omega)
      omega

/-- C2: the UPM-normalization policy of `merge_glyphs_from_font`: no rescale
at equal UPM or when the source UPM already equals the binary UPM; rescale
to the binary UPM when the source UPM is a power of two (`is_power_of_two`
accepts exactly the powers of two); otherwise rescale directly to the target
UPM.  `get_closest_power_of_two` maps `n ≤ 0` to 1 and a positive `n` to
`2^round(log2 n)` (the power of two nearest in log scale, characterized by
the strict squared bounds). -/
theorem upm_normalization_policy (source : Font) (target_upm : Int) :
    (get_upm source = target_upm → normalizeSourceUpm source target_upm = source) ∧
    (get_upm source = get_closest_power_of_two target_upm →
      normalizeSourceUpm source target_upm = source) ∧
    (get_upm source ≠ target_upm →
      get_upm source ≠ get_closest_power_of_two target_upm →
      is_power_of_two (get_upm source) = true →
      normalizeSourceUpm source target_upm =
        scale_font_upm source (get_closest_power_of_two target_upm)) ∧
    (get_upm source ≠ target_upm →
      get_upm source ≠ get_closest_power_of_two target_upm →
      is_power_of_two (get_upm source) = false →
      normalizeSourceUpm source target_upm = scale_font_upm source target_upm) ∧
    (is_power_of_two (get_upm source) = true ↔ ∃ k : ℕ, get_upm source = 2 ^ k) ∧
    (target_upm ≤ 0 → get_closest_power_of_two target_upm = 1) ∧
    (0 < target_upm → ∃ k : ℕ,
      get_closest_power_of_two target_upm = 2 ^ k ∧
      2 ^ (2 * k) < 2 * (target_upm.toNat * target_upm.toNat) ∧
      target_upm.toNat * target_upm.toNat < 2 ^ (2 * k + 1)) := by
  refine ⟨?_, ?_, ?_, ?_, is_power_of_two_iff _, ?_, ?_⟩
  · intro h; simp [normalizeSourceUpm, h]
  · intro h; simp [normalizeSourceUpm, h]
  · intro h1 h2 h3
    simp [normalizeSourceUpm, h1, h2, h3]
  · intro h1 h2 h3
    simp [normalizeSourceUpm, h1, h2, h3]
  · intro h; simp [get_closest_power_of_two, h]
  · intro h
    refine ⟨log2round target_upm.toNat, ?_, log2round_spec target_upm.toNat (by omega)⟩
    rw [get_closest_power_of_two, if_neg (not_le.mpr h)]
    push_cast
    ring

/-- A 2048-UPM TrueType source font with one glyph `X` holding a single
outline point at (1000, 0) (concrete test input). -/
def font2048 : Font :=
  ⟨2048, ["X"], [(0x58, "X")], some [("X", ⟨[(1000, 0)], 0, 0, 1000, 0, []⟩)], some []⟩

/-- Witness for C2: at source UPM 2048 and target UPM 1000 the policy takes
the rescale-to-binary branch, and the binary UPM is 1024. -/
theorem upm_normalization_policy_witness :
    normalizeSourceUpm font2048 1000 = scale_font_upm font2048 1024 ∧
      get_closest_power_of_two 1000 = 1024 := by
  have e : get_closest_power_of_two 1000 = 1024 := by decide
  have h := (upm_normalization_policy font2048 1000).2.2.1
    (by decide) (by rw [e]; decide) (by decide)
  rw [e] at h
  exact ⟨h, e⟩

/-- Counterexample to C10: normalizing the 2048-UPM source `font2048` for
merging into a 1000-UPM target rescales it to the binary UPM 1024 (factor
1/2), not to 1000: the outline point originally at x = 1000 lands at 500,
while the claimed value `round(1000 * 1000/2048)` is 488 — off by 12,
far outside truncation tolerance. -/
theorem upm_round_trip_counterexample :
    (normalizeSourceUpm font2048 1000).upm = 1024 ∧
      (normalizeSourceUpm font2048 1000).glyf =
        some [("X", ⟨[(500, 0)], 0, 0, 500, 0, []⟩)] ∧
      (⌊(1000 : ℚ) * 1000 / 2048 + 1 / 2⌋ : ℤ) = 488 ∧
      ¬|(500 : ℚ) - 488| ≤ 1 := by
  have e : get_closest_power_of_two 1000 = 1024 := by decide
  have hn : normalizeSourceUpm font2048 1000 = scale_font_upm font2048 1024 := by
    have hcond :
        ¬(get_upm font2048 = 1000 ∨ get_upm font2048 = get_closest_power_of_two 1000) := by
      rw [e]; decide
    have hpow : is_power_of_two (get_upm font2048) = true := by decide
    simp only [normalizeSourceUpm]
    rw [if_neg hcond, if_pos hpow, e]
  have hs : scale_font_upm font2048 1024 =
      ⟨1024, ["X"], [(0x58, "X")],
        some [("X", ⟨[(500, 0)], 0, 0, 500, 0, []⟩)], some []⟩ := by
    unfold scale_font_upm
    norm_num [font2048, scale_glyph, pyInt]
  refine ⟨?_, ?_, ?_, ?_⟩
  · rw [hn, hs]
  · rw [hn, hs]
  · have ev : (1000 : ℚ) * 1000 / 2048 + 1 / 2 = 1001024 / 2048 := by norm_num
    rw [ev, Int.floor_eq_iff]
    constructor <;> norm_num
  · rw [abs_of_nonneg (by norm_num : (0 : ℚ) ≤ 500 - 488)]
    norm_num

/-- C10 (amended): a 2048-UPM source normalized for merging into a 1000-UPM
target is rescaled to the binary UPM 1024 (2048 is a power of two, and the
nearest power of two to 1000 is 1024), so every outline point coordinate is
multiplied by exactly 1024/2048 = 1/2 (bounding boxes and metrics pass
through truncating `int()`). -/
theorem upm_2048_to_1000_halves (source : Font) (h : get_upm source = 2048) :
    normalizeSourceUpm source 1000 = scale_font_upm source 1024 ∧
      (normalizeSourceUpm source 1000).upm = 1024 ∧
      ∀ gl, source.glyf = some gl →
        (normalizeSourceUpm source 1000).glyf =
          some (gl.map fun e => (e.1, scale_glyph e.2 (1 / 2))) := by
  have e : get_closest_power_of_two 1000 = 1024 := by decide
  have hupm : source.upm = 2048 := h
  have hn : normalizeSourceUpm source 1000 = scale_font_upm source 1024 := by
    have hcond :
        ¬(get_upm source = 1000 ∨ get_upm source = get_closest_power_of_two 1000) := by
      simp only [get_upm, hupm, e]
      decide
    have hpow : is_power_of_two (get_upm source) = true := by
      simp only [get_upm, hupm]
      decide
    simp only [normalizeSourceUpm]
    rw [if_neg hcond, if_pos hpow, e]
  have hne : ¬source.upm = (1024 : Int) := by rw [hupm]; norm_num
  have hf : ((1024 : Int) : ℚ) / ((source.upm : Int) : ℚ) = 1 / 2 := by
    rw [hupm]; norm_num
  refine ⟨hn, ?_, ?_⟩
  · rw [hn]
    unfold scale_font_upm
    rw [if_neg hne]
  · intro gl hgl
    rw [hn]
    unfold scale_font_upm
    rw [if_neg hne]
    simp only [hgl, Option.map, hf]

/-- Witness for C10 (amended) at the concrete font `font2048`. -/
theorem upm_2048_to_1000_halves_witness :
    normalizeSourceUpm font2048 1000 = scale_font_upm font2048 1024 :=
  (upm_2048_to_1000_halves font2048 rfl).1

/-- Specification-side "first seen wins": the donor entry for a codepoint
comes from the first donor font (in list order, indices starting at `idx`)
whose codepoint table contains it. -/
def firstHit : List Font → Nat → Nat → Option (Nat × String)
  | [], _, _ => none
  | f :: rest, idx, cp =>
    match dget f.cmap cp with
    | some g => some (idx, g)
    | none => firstHit rest (idx + 1) cp

theorem dget_append {κ α : Type} [DecidableEq κ] (a b : List (κ × α)) (k : κ) :
    dget (a ++ b) k =
      match dget a k with
      | some v => some v
      | none => dget b k := by
  induction a with
  | nil => simp [dget]
  | cons hd tl ih =>
    obtain ⟨k', v⟩ := hd
    by_cases h : k' = k <;> simp [dget, h, ih]

theorem dget_addFontCmap (idx cp : Nat) :
    ∀ cm acc, dget (addFontCmap idx cm acc) cp =
      match dget acc cp with
      | some v => some v
      | none => (dget cm cp).map fun g => (idx, g) := by
  intro cm
  induction cm with
  | nil =>
    intro acc
    cases h : dget acc cp <;> simp [addFontCmap, h, dget]
  | cons hd tl ih =>
    intro acc
    obtain ⟨cp', g⟩ := hd
    rw [addFontCmap]
    by_cases hs : (dget acc cp').isSome
    · simp only [hs, if_true]
      rw [ih]
      by_cases hcc : cp' = cp
      · subst hcc
        obtain ⟨v, hv⟩ := Option.isSome_iff_exists.mp hs
        simp [dget, hv]
      · simp [dget, hcc]
    · rw [if_neg hs, ih, dget_append]
      by_cases hcc : cp' = cp
      · subst hcc
        have hn : dget acc cp' = none := by
          cases h : dget acc cp'
          · rfl
          · rw [h] at hs; simp at hs
        simp [dget, hn]
      · cases h : dget acc cp <;> simp [dget, h, hcc]

theorem dget_buildHaniAux (cp : Nat) :
    ∀ fonts idx acc, dget (buildHaniAux fonts idx acc) cp =
      match dget acc cp with
      | some v => some v
      | none => firstHit fonts idx cp := by
  intro fonts
  induction fonts with
  | nil =>
    intro idx acc
    rw [buildHaniAux]
    cases h : dget acc cp <;> simp [firstHit, h]
  | cons f rest ih =>
    intro idx acc
    rw [buildHaniAux, ih, dget_addFontCmap]
    cases h : dget acc cp
    · cases hf : dget f.cmap cp <;> simp [firstHit, hf]
    · simp [firstHit]

theorem firstHit_spec (cp : Nat) :
    ∀ fonts idx i g, firstHit fonts idx cp = some (i, g) →
      idx ≤ i ∧ i - idx < fonts.length ∧
      (∃ f, fonts[i - idx]? = some f ∧ dget f.cmap cp = some g) ∧
      ∀ j < i - idx, ∀ f, fonts[j]? = some f → dget f.cmap cp = none := by
  intro fonts
  induction fonts with
  | nil => intro idx i g h; simp [firstHit] at h
  | cons f rest ih =>
    intro idx i g h
    rw [firstHit] at h
    cases hf : dget f.cmap cp with
    | some g' =>
      rw [hf] at h
      have hig : idx = i ∧ g' = g := by
        have := Option.some.inj h
        exact ⟨congrArg Prod.fst this, congrArg Prod.snd this⟩
      obtain ⟨rfl, rfl⟩ := hig
      refine ⟨le_rfl, by simp, ⟨f, by simp, hf⟩, ?_⟩
      intro j hj
      omega
    | none =>
      rw [hf] at h
      obtain ⟨h1, h2, h3, h4⟩ := ih (idx + 1) i g h
      have hii : i - idx = (i - (idx + 1)) + 1 := by omega
      refine ⟨by omega, by simp; omega, ?_, ?_⟩
      · obtain ⟨f', hf', hg'⟩ := h3
        refine ⟨f', ?_, hg'⟩
        rw [hii]
        simpa using hf'
      · intro j hj f' hjf
        match j with
        | 0 =>
          simp at hjf
          rw [← hjf]
          exact hf
        | j' + 1 =>
          have hj' : j' < i - (idx + 1) := by omega
          exact h4 j' hj' f' (by simpa using hjf)

/-- C8: the frequency-ordered injector is a deterministic function of the
rank list, the donor font list (consulted in its given order) and the
target state; and the collective codepoint map is first-seen-wins: each
codepoint maps to the glyph of the first donor whose codepoint table
contains it, all earlier donors not containing it. -/
theorem add_hani_deterministic_first_seen :
    (∀ (freq₁ freq₂ : List Nat) (fonts₁ fonts₂ : List Font) (t₁ t₂ : Font),
      freq₁ = freq₂ → fonts₁ = fonts₂ → t₁ = t₂ →
      add_hani_by_frequency freq₁ fonts₁ t₁ = add_hani_by_frequency freq₂ fonts₂ t₂) ∧
    (∀ (fonts : List Font) (cp : Nat),
      dget (build_hani_cmap fonts) cp = firstHit fonts 0 cp) ∧
    (∀ (fonts : List Font) (cp i : Nat) (g : String),
      firstHit fonts 0 cp = some (i, g) →
      i < fonts.length ∧
      (∃ f, fonts[i]? = some f ∧ dget f.cmap cp = some g) ∧
      ∀ j < i, ∀ f, fonts[j]? = some f → dget f.cmap cp = none) := by
  refine ⟨?_, ?_, ?_⟩
  · intro freq₁ freq₂ fonts₁ fonts₂ t₁ t₂ h1 h2 h3
    subst h1; subst h2; subst h3
    rfl
  · intro fonts cp
    rw [build_hani_cmap, dget_buildHaniAux]
    rfl
  · intro fonts cp i g h
    obtain ⟨_, h2, h3, h4⟩ := firstHit_spec cp fonts 0 i g h
    simp only [Nat.sub_zero] at h2 h3 h4
    exact ⟨h2, h3, h4⟩

/-- Two donor fonts sharing codepoint U+4E00 (concrete test input): the
first donor's glyph wins. -/
def haniFontsW : List Font :=
  [⟨1000, ["ha"], [(0x4E00, "ha")], some [], some []⟩,
   ⟨1000, ["hb"], [(0x4E00, "hb"), (0x4E01, "hc")], some [], some []⟩]

/-- Witness for C8 at concrete donors: identical inputs give identical
results, and U+4E00 resolves to the first donor's glyph `ha`. -/
theorem add_hani_deterministic_first_seen_witness :
    add_hani_by_frequency [0x4E00] haniFontsW tinyTarget =
        add_hani_by_frequency [0x4E00] haniFontsW tinyTarget ∧
      dget (build_hani_cmap haniFontsW) 0x4E00 = firstHit haniFontsW 0 0x4E00 ∧
      firstHit haniFontsW 0 0x4E00 = some (0, "ha") :=
  ⟨add_hani_deterministic_first_seen.1 [0x4E00] [0x4E00] haniFontsW haniFontsW
      tinyTarget tinyTarget rfl rfl rfl,
    add_hani_deterministic_first_seen.2.1 haniFontsW 0x4E00,
    by decide⟩

theorem mem_setAdd {α : Type} [DecidableEq α] (l : List α) (a x : α) :
    x ∈ setAdd l a ↔ x ∈ l ∨ x = a := by
  unfold setAdd
  by_cases h : a ∈ l
  · rw [if_pos h]
    exact ⟨Or.inl, fun hx => hx.elim id fun he => he ▸ h⟩
  · rw [if_neg h]
    simp

theorem dget_isSome_iff_mem_keys {κ α : Type} [DecidableEq κ]
    (l : List (κ × α)) (k : κ) :
    (dget l k).isSome ↔ k ∈ l.map Prod.fst := by
  induction l with
  | nil => simp [dget]
  | cons hd tl ih =>
    obtain ⟨k', v⟩ := hd
    by_cases h : k' = k
    · subst h; simp [dget]
    · simp only [dget, if_neg h, List.map_cons, List.mem_cons]
      rw [ih]
      constructor
      · exact Or.inr
      · rintro (hk | hk)
        · exact absurd hk.symm h
        · exact hk

theorem scale_font_upm_upm (f : Font) (u : Int) : (scale_font_upm f u).upm = u := by
  unfold scale_font_upm
  by_cases h : f.upm = u
  · rw [if_pos h]; exact h
  · rw [if_neg h]

theorem scale_font_upm_cmap (f : Font) (u : Int) :
    (scale_font_upm f u).cmap = f.cmap := by
  unfold scale_font_upm
  by_cases h : f.upm = u
  · rw [if_pos h]
  · rw [if_neg h]

theorem scale_font_upm_glyf_isSome (f : Font) (u : Int) :
    (scale_font_upm f u).glyf.isSome = f.glyf.isSome := by
  unfold scale_font_upm
  by_cases h : f.upm = u
  · rw [if_pos h]
  · rw [if_neg h]
    cases f.glyf <;> rfl

/-- Normalizing an already-normalized source is a no-op: the rescaled UPM is
the target or binary UPM, both of which the policy treats as compatible. -/
theorem normalizeSourceUpm_idem (s : Font) (u : Int) :
    normalizeSourceUpm (normalizeSourceUpm s u) u = normalizeSourceUpm s u := by
  unfold normalizeSourceUpm
  by_cases h1 : get_upm s = u ∨ get_upm s = get_closest_power_of_two u
  · rw [if_pos h1, if_pos h1]
  · rw [if_neg h1]
    by_cases h2 : is_power_of_two (get_upm s) = true
    · rw [if_pos h2]
      exact if_pos (Or.inr (scale_font_upm_upm s (get_closest_power_of_two u)))
    · rw [if_neg h2]
      exact if_pos (Or.inl (scale_font_upm_upm s u))

theorem normalizeSourceUpm_cmap (s : Font) (u : Int) :
    (normalizeSourceUpm s u).cmap = s.cmap := by
  unfold normalizeSourceUpm
  by_cases h1 : get_upm s = u ∨ get_upm s = get_closest_power_of_two u
  · rw [if_pos h1]
  · rw [if_neg h1]
    by_cases h2 : is_power_of_two (get_upm s) = true
    · rw [if_pos h2, scale_font_upm_cmap]
    · rw [if_neg h2, scale_font_upm_cmap]

theorem normalizeSourceUpm_glyf_isSome (s : Font) (u : Int) :
    (normalizeSourceUpm s u).glyf.isSome = s.glyf.isSome := by
  unfold normalizeSourceUpm
  by_cases h1 : get_upm s = u ∨ get_upm s = get_closest_power_of_two u
  · rw [if_pos h1]
  · rw [if_neg h1]
    by_cases h2 : is_power_of_two (get_upm s) = true
    · rw [if_pos h2, scale_font_upm_glyf_isSome]
    · rw [if_neg h2, scale_font_upm_glyf_isSome]

theorem copy_glyph_props (sf tf : Font) (sn tn : String)
    (m : List (String × String)) (tf' : Font)
    (h : copy_glyph sf tf sn tn m = some tf') :
    tf'.cmap = tf.cmap ∧ tf'.upm = tf.upm ∧ tf'.glyf.isSome = tf.glyf.isSome := by
  unfold copy_glyph at h
  cases hs : sf.glyf with
  | none => rw [hs] at h; exact absurd h (by simp)
  | some sglyf =>
    cases ht : tf.glyf with
    | none => rw [hs, ht] at h; exact absurd h (by simp)
    | some tglyf =>
      rw [hs, ht] at h
      dsimp only at h
      cases hsn : dget sglyf sn with
      | none => rw [hsn] at h; exact absurd h (by simp)
      | some sg =>
        rw [hsn] at h
        dsimp only at h
        rw [← Option.some.inj h]
        refine ⟨rfl, rfl, ?_⟩
        simp [ht]

/-- `copy_glyph` returns `False` exactly when the target has no `glyf` table
or the source glyph is missing (given the source has a `glyf` table). -/
theorem copy_glyph_none_iff (sf tf : Font) (sn tn : String)
    (m : List (String × String)) (sglyf : List (String × Glyph))
    (hsf : sf.glyf = some sglyf) :
    copy_glyph sf tf sn tn m = none ↔ tf.glyf = none ∨ dget sglyf sn = none := by
  unfold copy_glyph
  rw [hsf]
  cases ht : tf.glyf with
  | none => simp
  | some tglyf =>
    dsimp only
    cases hsn : dget sglyf sn with
    | none => simp
    | some sg => simp

theorem compLoop_state (sf : Font) (b : Bool) (cur : Nat) :
    ∀ comps st, (compLoop sf b cur comps st).covered = st.covered ∧
      (compLoop sf b cur comps st).target.cmap = st.target.cmap ∧
      (compLoop sf b cur comps st).target.glyf.isSome = st.target.glyf.isSome ∧
      (compLoop sf b cur comps st).target.upm = st.target.upm ∧
      (compLoop sf b cur comps st).hitLimit = st.hitLimit ∧
      (compLoop sf b cur comps st).codepointsAdded = st.codepointsAdded := by
  intro comps
  induction comps with
  | nil => intro st; rw [compLoop]; exact ⟨rfl, rfl, rfl, rfl, rfl, rfl⟩
  | cons c rest ih =>
    intro st
    rw [compLoop]
    by_cases h1 : c ∈ st.targetGlyphs ∨ (dget st.mapping c).isSome
    · rw [if_pos h1]
      exact ih st
    · rw [if_neg h1]
      by_cases h2 : MAX_GLYPHS ≤ cur + st.glyphsAdded
      · rw [if_pos h2]
        exact ⟨rfl, rfl, rfl, rfl, rfl, rfl⟩
      · rw [if_neg h2]
        dsimp only
        cases hc : copy_glyph sf st.target c
            (findFreeName (compCand b c) st.targetGlyphs) [] with
        | none => exact ih st
        | some target' =>
          obtain ⟨hcm, hupm, hgl⟩ := copy_glyph_props sf st.target _ _ _ _ hc
          obtain ⟨i1, i2, i3, i4, i5, i6⟩ := ih
            { st with
              target := target'
              mapping := dset c (findFreeName (compCand b c) st.targetGlyphs) st.mapping
              targetGlyphs := setAdd st.targetGlyphs
                (findFreeName (compCand b c) st.targetGlyphs)
              glyphsAdded := st.glyphsAdded + 1 }
          refine ⟨i1, ?_, ?_, ?_, i5, i6⟩
          · rw [i2]; exact hcm
          · rw [i3]; exact hgl
          · rw [i4]; exact hupm

theorem compLoop_target_glyf_none (sf : Font) (b : Bool) (cur : Nat) :
    ∀ comps st, st.target.glyf = none → compLoop sf b cur comps st = st := by
  intro comps
  induction comps with
  | nil => intro st _; rw [compLoop]
  | cons c rest ih =>
    intro st hg
    rw [compLoop]
    by_cases h1 : c ∈ st.targetGlyphs ∨ (dget st.mapping c).isSome
    · rw [if_pos h1]
      exact ih st hg
    · rw [if_neg h1]
      by_cases h2 : MAX_GLYPHS ≤ cur + st.glyphsAdded
      · rw [if_pos h2]
      · rw [if_neg h2]
        dsimp only
        have hc : copy_glyph sf st.target c
            (findFreeName (compCand b c) st.targetGlyphs) [] = none := by
          unfold copy_glyph
          rw [hg]
          cases sf.glyf <;> rfl
        rw [hc]
        exact ih st hg

theorem registerCodepoints_spec (tn : String) :
    ∀ cps st, ((registerCodepoints tn cps st).target.glyf = st.target.glyf) ∧
      ((registerCodepoints tn cps st).target.upm = st.target.upm) ∧
      ((registerCodepoints tn cps st).target.glyphOrder = st.target.glyphOrder) ∧
      ((registerCodepoints tn cps st).hitLimit = st.hitLimit) ∧
      ((registerCodepoints tn cps st).glyphsAdded = st.glyphsAdded) ∧
      ((registerCodepoints tn cps st).targetGlyphs = st.targetGlyphs) ∧
      ((registerCodepoints tn cps st).mapping = st.mapping) ∧
      (∀ x, x ∈ (registerCodepoints tn cps st).covered ↔ x ∈ st.covered ∨ x ∈ cps) ∧
      (∀ cp, (dget st.target.cmap cp).isSome →
        (dget (registerCodepoints tn cps st).target.cmap cp).isSome) ∧
      (∀ cp ∈ cps, (dget (registerCodepoints tn cps st).target.cmap cp).isSome) := by
  intro cps
  induction cps with
  | nil =>
    intro st
    rw [registerCodepoints]
    refine ⟨rfl, rfl, rfl, rfl, rfl, rfl, rfl, fun x => by simp, fun cp h => h, ?_⟩
    intro cp h
    exact absurd h (List.not_mem_nil cp)
  | cons cp rest ih =>
    intro st
    rw [registerCodepoints]
    obtain ⟨i1, i2, i3, i4, i5, i6, i7, i8, i9, i10⟩ := ih
      { st with
        target := add_cmap_entry st.target cp tn
        codepointsAdded := st.codepointsAdded + 1
        covered := setAdd st.covered cp }
    refine ⟨i1, i2, i3, i4, i5, i6, i7, ?_, ?_, ?_⟩
    · intro x
      rw [i8 x]
      dsimp only
      rw [mem_setAdd]
      constructor
      · rintro ((hx | hx) | hx)
        · exact Or.inl hx
        · exact Or.inr (by rw [hx]; exact List.mem_cons_self cp rest)
        · exact Or.inr (List.mem_cons_of_mem cp hx)
      · rintro (hx | hx)
        · exact Or.inl (Or.inl hx)
        · rcases List.mem_cons.mp hx with hx | hx
          · exact Or.inl (Or.inr hx)
          · exact Or.inr hx
    · intro cp' h
      apply i9
      dsimp only [add_cmap_entry]
      exact dget_dset_isSome cp cp' tn st.target.cmap h
    · intro cp' h
      rcases List.mem_cons.mp h with hx | hx
      · subst hx
        apply i9
        dsimp only [add_cmap_entry]
        rw [dget_dset]
        simp
      · exact i10 cp' hx

/-- Every covered codepoint has a key in the target codepoint table
(holds initially — the covered set is read off the table — and is preserved
by the copy loop, which registers codepoints in both). -/
def CoveredKeys (st : MergeState) : Prop :=
  ∀ cp ∈ st.covered, (dget st.target.cmap cp).isSome

theorem option_none_of_isSome_eq {α β : Type} {a : Option α} {b : Option β}
    (h : a.isSome = b.isSome) (ha : a = none) : b = none := by
  cases b with
  | none => rfl
  | some x => rw [ha] at h; simp at h

theorem copyLoop_spec (sf : Font) (sglyf : List (String × Glyph))
    (hsf : sf.glyf = some sglyf) (b : Bool) (cur : Nat) :
    ∀ l st st', copyLoop sf b cur l st = some st' → st'.hitLimit = false →
      st.hitLimit = false ∧
      (∀ cp, (dget st.target.cmap cp).isSome → (dget st'.target.cmap cp).isSome) ∧
      st'.target.glyf.isSome = st.target.glyf.isSome ∧
      st'.target.upm = st.target.upm ∧
      (CoveredKeys st → CoveredKeys st') ∧
      (∀ x ∈ st.covered, x ∈ st'.covered) ∧
      ∀ gi ∈ l, (get_component_glyphs sf gi.sourceName).isSome ∧
        (st.target.glyf = none ∨ dget sglyf gi.sourceName = none ∨
          ∀ cp ∈ gi.codepoints, cp ∈ st'.covered) := by
  intro l
  induction l with
  | nil =>
    intro st st' h hnl
    have hst := Option.some.inj h
    subst hst
    exact ⟨hnl, fun cp hcp => hcp, rfl, rfl, id, fun x hx => hx,
      fun gi hgi => absurd hgi (List.not_mem_nil gi)⟩
  | cons gi rest ih =>
    intro st st' h hnl
    rw [copyLoop] at h
    by_cases h1 : MAX_GLYPHS ≤ cur + st.glyphsAdded
    · rw [if_pos h1] at h
      exfalso
      have hst := Option.some.inj h
      rw [← hst] at hnl
      simp at hnl
    · rw [if_neg h1] at h
      cases hcg : get_component_glyphs sf gi.sourceName with
      | none => rw [hcg] at h; exact absurd h (by simp)
      | some comps =>
        rw [hcg] at h
        dsimp only at h
        obtain ⟨c1, c2, c3, c4, c5, c6⟩ := compLoop_state sf b cur comps st
        cases hc : copy_glyph sf (compLoop sf b cur comps st).target
            gi.sourceName gi.targetName (compLoop sf b cur comps st).mapping with
        | none =>
          rw [hc] at h
          obtain ⟨j1, j2, j3, j4, j5, j6, j7⟩ := ih (compLoop sf b cur comps st) st' h hnl
          have hfail := (copy_glyph_none_iff sf (compLoop sf b cur comps st).target
            gi.sourceName gi.targetName (compLoop sf b cur comps st).mapping
            sglyf hsf).mp hc
          refine ⟨by rw [← c5]; exact j1, ?_, ?_, ?_, ?_, ?_, ?_⟩
          · intro cp hcp
            exact j2 cp (by rw [c2]; exact hcp)
          · rw [j3, c3]
          · rw [j4, c4]
          · intro hck
            apply j5
            intro cp hcp
            rw [c2]
            exact hck cp (by rw [← c1]; exact hcp)
          · intro x hx
            exact j6 x (by rw [c1]; exact hx)
          · intro gi' hgi'
            rcases List.mem_cons.mp hgi' with hgi' | hgi'
            · subst hgi'
              refine ⟨by rw [hcg]; rfl, ?_⟩
              rcases hfail with hfail | hfail
              · exact Or.inl (option_none_of_isSome_eq c3 hfail)
              · exact Or.inr (Or.inl hfail)
            · obtain ⟨k1, k2⟩ := j7 gi' hgi'
              refine ⟨k1, ?_⟩
              rcases k2 with k2 | k2 | k2
              · exact Or.inl (option_none_of_isSome_eq c3 k2)
              · exact Or.inr (Or.inl k2)
              · exact Or.inr (Or.inr k2)
        | some tf2 =>
          rw [hc] at h
          dsimp only at h
          obtain ⟨pcm, pupm, pgl⟩ :=
            copy_glyph_props sf (compLoop sf b cur comps st).target
              gi.sourceName gi.targetName (compLoop sf b cur comps st).mapping tf2 hc
          obtain ⟨r1, r2, r3, r4, r5, r6, r7, r8, r9, r10⟩ :=
            registerCodepoints_spec gi.targetName gi.codepoints
              ⟨tf2, setAdd (compLoop sf b cur comps st).targetGlyphs gi.targetName,
                (compLoop sf b cur comps st).covered,
                dset gi.sourceName gi.targetName (compLoop sf b cur comps st).mapping,
                (compLoop sf b cur comps st).glyphsAdded + 1,
                (compLoop sf b cur comps st).codepointsAdded,
                (compLoop sf b cur comps st).hitLimit⟩
          obtain ⟨j1, j2, j3, j4, j5, j6, j7⟩ := ih _ st' h hnl
          have hkeys : ∀ cp, (dget st.target.cmap cp).isSome →
              (dget (registerCodepoints gi.targetName gi.codepoints
                ⟨tf2, setAdd (compLoop sf b cur comps st).targetGlyphs gi.targetName,
                  (compLoop sf b cur comps st).covered,
                  dset gi.sourceName gi.targetName (compLoop sf b cur comps st).mapping,
                  (compLoop sf b cur comps st).glyphsAdded + 1,
                  (compLoop sf b cur comps st).codepointsAdded,
                  (compLoop sf b cur comps st).hitLimit⟩).target.cmap cp).isSome := by
            intro cp hcp
            apply r9
            dsimp only
            rw [pcm, c2]
            exact hcp
          refine ⟨?_, ?_, ?_, ?_, ?_, ?_, ?_⟩
          · rw [← c5]
            rw [r4] at j1
            exact j1
          · intro cp hcp
            exact j2 cp (hkeys cp hcp)
          · rw [j3, r1]
            dsimp only
            rw [pgl, c3]
          · rw [j4, r2]
            dsimp only
            rw [pupm, c4]
          · intro hck
            apply j5
            intro cp hcp
            rw [r8] at hcp
            rcases hcp with hcp | hcp
            · dsimp only at hcp
              rw [c1] at hcp
              exact hkeys cp (hck cp hcp)
            · exact r10 cp hcp
          · intro x hx
            apply j6
            rw [r8]
            dsimp only
            rw [c1]
            exact Or.inl hx
          · intro gi' hgi'
            rcases List.mem_cons.mp hgi' with hgi' | hgi'
            · subst hgi'
              refine ⟨by rw [hcg]; rfl, Or.inr (Or.inr ?_)⟩
              intro cp hcp
              apply j6
              rw [r8]
              exact Or.inr hcp
            · obtain ⟨k1, k2⟩ := j7 gi' hgi'
              refine ⟨k1, ?_⟩
              rcases k2 with k2 | k2 | k2
              · refine Or.inl (option_none_of_isSome_eq ?_ k2)
                rw [r1]
                dsimp only
                rw [pgl, c3]
              · exact Or.inr (Or.inl k2)
              · exact Or.inr (Or.inr k2)

theorem get_component_glyphs_not_in_glyf (sf : Font)
    (sglyf : List (String × Glyph)) (name : String)
    (h1 : sf.glyf = some sglyf) (h2 : dget sglyf name = none) :
    get_component_glyphs sf name = some [] := by
  unfold get_component_glyphs
  rw [h1]
  show getComponentsFuel (sglyf.length + 1 + 1) sglyf name = some []
  rw [getComponentsFuel, h2]

/-- A copy loop in which every planned glyph fails to copy (missing source
glyph or target without a `glyf` table) adds no glyphs and no codepoints. -/
theorem copyLoop_allFail (sf : Font) (sglyf : List (String × Glyph))
    (hsf : sf.glyf = some sglyf) (b : Bool) (cur : Nat) :
    ∀ l st,
      (∀ gi ∈ l, st.target.glyf = none ∨ dget sglyf gi.sourceName = none) →
      (∀ gi ∈ l, (get_component_glyphs sf gi.sourceName).isSome) →
      ∃ st', copyLoop sf b cur l st = some st' ∧
        st'.glyphsAdded = st.glyphsAdded ∧
        st'.codepointsAdded = st.codepointsAdded := by
  intro l
  induction l with
  | nil =>
    intro st _ _
    exact ⟨st, by rw [copyLoop], rfl, rfl⟩
  | cons gi rest ih =>
    intro st hfail hcg
    rw [copyLoop]
    by_cases h1 : MAX_GLYPHS ≤ cur + st.glyphsAdded
    · rw [if_pos h1]
      exact ⟨{ st with hitLimit := true }, rfl, rfl, rfl⟩
    · rw [if_neg h1]
      cases hc : get_component_glyphs sf gi.sourceName with
      | none =>
        have := hcg gi (List.mem_cons_self gi rest)
        rw [hc] at this
        simp at this
      | some comps =>
        dsimp only
        rcases hfail gi (List.mem_cons_self gi rest) with hf | hf
        · -- target has no glyf: the component loop is a no-op and the copy fails
          rw [compLoop_target_glyf_none sf b cur comps st hf]
          have hcopy : copy_glyph sf st.target gi.sourceName gi.targetName
              st.mapping = none :=
            (copy_glyph_none_iff sf st.target gi.sourceName gi.targetName
              st.mapping sglyf hsf).mpr (Or.inl hf)
          rw [hcopy]
          exact ih st (fun gi' hgi' => hfail gi' (List.mem_cons_of_mem gi hgi'))
            (fun gi' hgi' => hcg gi' (List.mem_cons_of_mem gi hgi'))
        · -- the source glyph is missing: no components, and the copy fails
          have hcomps : comps = [] := by
            have := get_component_glyphs_not_in_glyf sf sglyf gi.sourceName hsf hf
            rw [hc] at this
            exact Option.some.inj this
          subst hcomps
          rw [compLoop]
          have hcopy : copy_glyph sf st.target gi.sourceName gi.targetName
              st.mapping = none :=
            (copy_glyph_none_iff sf st.target gi.sourceName gi.targetName
              st.mapping sglyf hsf).mpr (Or.inr hf)
          rw [hcopy]
          exact ih st (fun gi' hgi' => hfail gi' (List.mem_cons_of_mem gi hgi'))
            (fun gi' hgi' => hcg gi' (List.mem_cons_of_mem gi hgi'))

theorem contains_eq_false_iff {α : Type} [BEq α] [LawfulBEq α]
    (l : List α) (x : α) : l.contains x = false ↔ x ∉ l := by
  rw [← Bool.not_eq_true]
  exact not_congr List.elem_iff

theorem mem_survivingCodepoints (env : UnicodeEnv) (eh eg b : Bool)
    (covered cps : List Nat) (cp : Nat) :
    cp ∈ survivingCodepoints env eh eg b covered cps ↔
      cp ∈ cps ∧ cp ∉ covered ∧
      is_excluded_codepoint env cp eh eg = false ∧
      (b = true ∨ env.valid cp = true) := by
  unfold survivingCodepoints
  rw [List.mem_filter]
  simp only [Bool.and_eq_true, Bool.not_eq_true', Bool.or_eq_true,
    contains_eq_false_iff]
  tauto

theorem planGlyphs_complete (env : UnicodeEnv) (eh eg b : Bool)
    (cov : List Nat) (taken : List String) :
    ∀ l name cps, (name, cps) ∈ l →
      survivingCodepoints env eh eg b cov cps ≠ [] →
      ∃ gi, gi ∈ planGlyphs env eh eg b cov taken l ∧ gi.sourceName = name ∧
        gi.codepoints = survivingCodepoints env eh eg b cov cps := by
  intro l
  induction l with
  | nil => intro name cps h _; exact absurd h (List.not_mem_nil _)
  | cons hd tl ih =>
    intro name cps h hne
    obtain ⟨n0, c0⟩ := hd
    rcases List.mem_cons.mp h with h | h
    · obtain ⟨rfl, rfl⟩ : n0 = name ∧ c0 = cps :=
        ⟨congrArg Prod.fst h.symm, congrArg Prod.snd h.symm⟩
      rw [planGlyphs]
      rw [if_neg (by simpa [List.isEmpty_iff] using hne)]
      exact ⟨_, List.mem_cons_self _ _, rfl, rfl⟩
    · obtain ⟨gi, hgi, h1, h2⟩ := ih name cps h hne
      rw [planGlyphs]
      by_cases he : (survivingCodepoints env eh eg b cov c0).isEmpty
      · rw [if_pos he]
        exact ⟨gi, hgi, h1, h2⟩
      · rw [if_neg he]
        exact ⟨gi, List.mem_cons_of_mem _ hgi, h1, h2⟩

/-- The C5 invariant: every `glyf` entry of `t` is either an entry of the
initial target `t0` or a component-renamed copy of a donor glyph, and every
`hmtx` entry of `t` is either original or a donor's exact (width, lsb)
pair. -/
def DonorCopies (fonts : List Font) (t0 t : Font) : Prop :=
  (∀ n gl, dget (t.glyf.getD []) n = some gl →
    dget (t0.glyf.getD []) n = some gl ∨
    ∃ f sn sg m, f ∈ fonts ∧ dget (f.glyf.getD []) sn = some sg ∧
      gl = renameComponents m sg) ∧
  (∀ n wl, dget (t.hmtx.getD []) n = some wl →
    dget (t0.hmtx.getD []) n = some wl ∨
    ∃ f sn sm, f ∈ fonts ∧ f.hmtx = some sm ∧ dget sm sn = some wl)

theorem copy_glyph_donorCopies (fonts : List Font) (t0 sf tf : Font)
    (sn tn : String) (m : List (String × String)) (tf' : Font)
    (hsf : sf ∈ fonts) (h : copy_glyph sf tf sn tn m = some tf')
    (hinv : DonorCopies fonts t0 tf) : DonorCopies fonts t0 tf' := by
  unfold copy_glyph at h
  cases hsg : sf.glyf with
  | none => rw [hsg] at h; exact absurd h (by simp)
  | some sglyf =>
    cases htg : tf.glyf with
    | none => rw [hsg, htg] at h; exact absurd h (by simp)
    | some tglyf =>
      rw [hsg, htg] at h
      dsimp only at h
      cases hsn : dget sglyf sn with
      | none => rw [hsn] at h; exact absurd h (by simp)
      | some sg =>
        rw [hsn] at h
        dsimp only at h
        have htf' := (Option.some.inj h).symm
        subst htf'
        constructor
        · intro n gl hg
          dsimp only [Option.getD] at hg
          rw [dget_dset] at hg
          by_cases hn : tn = n
          · rw [if_pos hn] at hg
            right
            exact ⟨sf, sn, sg, m, hsf,
              by rw [hsg]; simpa using hsn, (Option.some.inj hg).symm⟩
          · rw [if_neg hn] at hg
            exact hinv.1 n gl (by rw [htg]; simpa using hg)
        · intro n wl hw
          dsimp only at hw
          cases hsm : sf.hmtx with
          | none =>
            rw [hsm] at hw
            dsimp only at hw
            exact hinv.2 n wl hw
          | some sm =>
            cases htm : tf.hmtx with
            | none =>
              rw [hsm, htm] at hw
              dsimp only [Option.getD] at hw
              exact absurd hw (by simp [dget])
            | some tm =>
              rw [hsm, htm] at hw
              dsimp only [Option.getD] at hw
              cases hwl : dget sm sn with
              | none =>
                rw [hwl] at hw
                dsimp only [Option.getD] at hw
                refine hinv.2 n wl ?_
                rw [htm]
                simpa using hw
              | some wl0 =>
                rw [hwl] at hw
                dsimp only [Option.getD] at hw
                rw [dget_dset] at hw
                by_cases hn : tn = n
                · rw [if_pos hn] at hw
                  right
                  exact ⟨sf, sn, sm, hsf, hsm, by rw [hwl]; exact hw⟩
                · rw [if_neg hn] at hw
                  refine hinv.2 n wl ?_
                  rw [htm]
                  simpa using hw

theorem compLoop_donorCopies (fonts : List Font) (t0 sf : Font) (b : Bool)
    (cur : Nat) :
    ∀ comps st, sf ∈ fonts → DonorCopies fonts t0 st.target →
      DonorCopies fonts t0 (compLoop sf b cur comps st).target := by
  intro comps
  induction comps with
  | nil => intro st _ hinv; rw [compLoop]; exact hinv
  | cons c rest ih =>
    intro st hsf hinv
    rw [compLoop]
    by_cases h1 : c ∈ st.targetGlyphs ∨ (dget st.mapping c).isSome
    · rw [if_pos h1]
      exact ih st hsf hinv
    · rw [if_neg h1]
      by_cases h2 : MAX_GLYPHS ≤ cur + st.glyphsAdded
      · rw [if_pos h2]
        exact hinv
      · rw [if_neg h2]
        dsimp only
        cases hc : copy_glyph sf st.target c
            (findFreeName (compCand b c) st.targetGlyphs) [] with
        | none => exact ih st hsf hinv
        | some target' =>
          exact ih _ hsf
            (copy_glyph_donorCopies fonts t0 sf st.target _ _ [] _ hsf hc hinv)

theorem registerCodepoints_target_tables (tn : String) :
    ∀ cps st, (registerCodepoints tn cps st).target.glyf = st.target.glyf ∧
      (registerCodepoints tn cps st).target.hmtx = st.target.hmtx := by
  intro cps
  induction cps with
  | nil => intro st; rw [registerCodepoints]; exact ⟨rfl, rfl⟩
  | cons cp rest ih =>
    intro st
    rw [registerCodepoints]
    exact ih _

theorem haniLoop_donorCopies (fonts : List Font)
    (coll : List (Nat × Nat × String)) (tupm : Int) (cur : Nat) (t0 : Font) :
    ∀ freq st st', DonorCopies fonts t0 st.target →
      haniLoop fonts coll tupm cur freq st = some st' →
      DonorCopies fonts t0 st'.target := by
  intro freq
  induction freq with
  | nil =>
    intro st st' hinv h
    rw [haniLoop] at h
    rw [← Option.some.inj h]
    exact hinv
  | cons cp rest ih =>
    intro st st' hinv h
    rw [haniLoop] at h
    by_cases h1 : MAX_GLYPHS ≤ cur + st.glyphsAdded
    · rw [if_pos h1] at h
      rw [← Option.some.inj h]
      exact hinv
    · rw [if_neg h1] at h
      by_cases h2 : cp ∈ st.covered
      · rw [if_pos h2] at h
        exact ih st st' hinv h
      · rw [if_neg h2] at h
        cases hcoll : dget coll cp with
        | none => rw [hcoll] at h; exact ih st st' hinv h
        | some entry =>
          rw [hcoll] at h
          obtain ⟨idx, sname⟩ := entry
          dsimp only at h
          cases hfont : fonts[idx]? with
          | none => rw [hfont] at h; exact ih st st' hinv h
          | some sf =>
            rw [hfont] at h
            dsimp only at h
            have hsf : sf ∈ fonts := List.getElem?_mem hfont
            cases hcg : get_component_glyphs sf sname with
            | none => rw [hcg] at h; exact absurd h (by simp)
            | some comps =>
              rw [hcg] at h
              dsimp only at h
              have hinv1 : DonorCopies fonts t0
                  (compLoop sf false cur comps st).target :=
                compLoop_donorCopies fonts t0 sf false cur comps st hsf hinv
              cases hc : copy_glyph sf (compLoop sf false cur comps st).target
                  sname (findFreeName (synthCand cp) st.targetGlyphs)
                  (compLoop sf false cur comps st).mapping with
              | none =>
                rw [hc] at h
                exact ih _ st' hinv1 h
              | some target' =>
                rw [hc] at h
                have hinv2 : DonorCopies fonts t0 target' :=
                  copy_glyph_donorCopies fonts t0 sf _ _ _ _ _ hsf hc hinv1
                refine ih _ st' ?_ h
                have hreg := registerCodepoints_target_tables
                  (findFreeName (synthCand cp) st.targetGlyphs) [cp]
                  { compLoop sf false cur comps st with
                    target := target'
                    mapping := dset sname
                      (findFreeName (synthCand cp) st.targetGlyphs)
                      (compLoop sf false cur comps st).mapping
                    targetGlyphs := setAdd
                      (compLoop sf false cur comps st).targetGlyphs
                      (findFreeName (synthCand cp) st.targetGlyphs)
                    glyphsAdded := (compLoop sf false cur comps st).glyphsAdded + 1 }
                constructor
                · intro n gl hg
                  rw [hreg.1] at hg
                  exact hinv2.1 n gl hg
                · intro n wl hw
                  rw [hreg.2] at hw
                  exact hinv2.2 n wl hw

/-- C5: every glyph the frequency-ordered injector writes into the target
carries the donor font's original values: each `glyf` entry of the result is
either an entry of the initial target or a component-renamed copy of a donor
glyph (and renaming changes only component names — outline coordinates,
bounding box and component offsets are identical), and each `hmtx` entry is
either original or a donor's exact (width, lsb) pair.  The per-glyph scale
factor computed in the loop is never applied, even when donor and target UPM
differ (no hypothesis relates them). -/
theorem add_hani_copies_exact (freq : List Nat) (fonts : List Font)
    (t0 t : Font) (g c : Nat)
    (h : add_hani_by_frequency freq fonts t0 = some (t, g, c)) :
    ((∀ n gl, dget (t.glyf.getD []) n = some gl →
      dget (t0.glyf.getD []) n = some gl ∨
      ∃ f sn sg m, f ∈ fonts ∧ dget (f.glyf.getD []) sn = some sg ∧
        gl = renameComponents m sg) ∧
     (∀ n wl, dget (t.hmtx.getD []) n = some wl →
      dget (t0.hmtx.getD []) n = some wl ∨
      ∃ f sn sm, f ∈ fonts ∧ f.hmtx = some sm ∧ dget sm sn = some wl)) ∧
    ∀ m sg, (renameComponents m sg).coordinates = sg.coordinates ∧
      (renameComponents m sg).xMin = sg.xMin ∧
      (renameComponents m sg).yMin = sg.yMin ∧
      (renameComponents m sg).xMax = sg.xMax ∧
      (renameComponents m sg).yMax = sg.yMax ∧
      (renameComponents m sg).components.map (fun cr => (cr.x, cr.y)) =
        sg.components.map (fun cr => (cr.x, cr.y)) := by
  refine ⟨?_, ?_⟩
  · unfold add_hani_by_frequency at h
    dsimp only at h
    cases hrun : haniLoop fonts (build_hani_cmap fonts) (get_upm t0)
        t0.glyphOrder.length freq
        ⟨t0, t0.glyphOrder, (get_unicode_to_glyph_map t0).map Prod.fst,
          [], 0, 0, false⟩ with
    | none => rw [hrun] at h; exact absurd h (by simp)
    | some st =>
      rw [hrun] at h
      have hst : st.target = t := congrArg Prod.fst (Option.some.inj h)
      have hinv := haniLoop_donorCopies fonts (build_hani_cmap fonts)
        (get_upm t0) t0.glyphOrder.length t0 freq
        ⟨t0, t0.glyphOrder, (get_unicode_to_glyph_map t0).map Prod.fst,
          [], 0, 0, false⟩ st
        ⟨fun n gl hg => Or.inl hg, fun n wl hw => Or.inl hw⟩ hrun
      rw [hst] at hinv
      exact hinv
  · intro m sg
    refine ⟨rfl, rfl, rfl, rfl, rfl, ?_⟩
    unfold renameComponents
    simp only [List.map_map]
    apply List.map_congr_left
    intro cr _
    simp only [Function.comp_apply]
    cases hd : dget m cr.glyphName <;> simp [hd]

/-- A single donor font with a real glyph for U+4E00
(concrete test input). -/
def haniDonorW : List Font :=
  [⟨1000, ["ha"], [(0x4E00, "ha")], some [("ha", simpleGlyph)],
    some [("ha", (600, 50))]⟩]

/-- Witness for C5: running the injector on the concrete donor, the injected
glyph `u4E00` is a component-renamed copy of a donor glyph. -/
theorem add_hani_copies_exact_witness :
    ∃ f sn sg m, f ∈ haniDonorW ∧ dget (f.glyf.getD []) sn = some sg ∧
      simpleGlyph = renameComponents m sg := by
  have hrun : add_hani_by_frequency [0x4E00] haniDonorW tinyTarget =
      some (⟨1000, [".notdef", "u4E00"], [(0x4E00, "u4E00")],
        some [("u4E00", simpleGlyph)], some [("u4E00", (600, 50))]⟩, 1, 1) := by
    decide
  have h := (add_hani_copies_exact [0x4E00] haniDonorW tinyTarget _ _ _ hrun).1.1
    "u4E00" simpleGlyph (by decide)
  rcases h with h | h
  · exact absurd h (by decide)
  · exact h

/-- Decimal value of a big-endian digit string (left inverse of
`natDigits`, used to prove injectivity of `natRepr`). -/
def digitsVal (l : List Char) : Nat :=
  l.foldl (fun acc c => 10 * acc + (c.toNat - 48)) 0

theorem string_append_data (a b : String) : (a ++ b).data = a.data ++ b.data := rfl

theorem digitsVal_natDigitsAux :
    ∀ fuel n, n ≤ fuel → digitsVal (natDigitsAux fuel n) = n := by
  intro fuel
  induction fuel with
  | zero =>
    intro n h
    have hn : n = 0 := by omega
    subst hn
    rfl
  | succ f ih =>
    intro n h
    rw [natDigitsAux]
    by_cases hn : n = 0
    · subst hn; rfl
    · rw [if_neg hn]
      have h10 : n / 10 ≤ f := by omega
      have hv := ih _ h10
      unfold digitsVal at hv ⊢
      rw [List.foldl_append, hv]
      have hlt : n % 10 < 10 := Nat.mod_lt _ (by norm_num)
      have hd : (digitChar (n % 10)).toNat = 48 + n % 10 := by
        set r := n % 10 with hr
        clear_value r
        interval_cases r <;> rfl
      simp only [List.foldl_cons, List.foldl_nil, hd]
      omega

theorem digitsVal_natDigits (n : Nat) : digitsVal (natDigits n) = n :=
  digitsVal_natDigitsAux n n le_rfl

theorem natRepr_injective : Function.Injective natRepr := by
  intro m n h
  unfold natRepr at h
  by_cases hm : m = 0 <;> by_cases hn : n = 0
  · omega
  · exfalso
    rw [if_pos hm, if_neg hn] at h
    have hdata : ("0" : String).data = natDigits n := congrArg String.data h
    have := congrArg digitsVal hdata
    rw [digitsVal_natDigits] at this
    exact hn (this.symm.trans (by rfl))
  · exfalso
    rw [if_neg hm, if_pos hn] at h
    have hdata : natDigits m = ("0" : String).data := congrArg String.data h
    have := congrArg digitsVal hdata
    rw [digitsVal_natDigits] at this
    exact hm (this.trans (by rfl))
  · rw [if_neg hm, if_neg hn] at h
    have hdata : natDigits m = natDigits n := congrArg String.data h
    have := congrArg digitsVal hdata
    rw [digitsVal_natDigits, digitsVal_natDigits] at this
    exact this

theorem synthCand_injective (cp : Nat) : Function.Injective (synthCand cp) := by
  intro i j h
  unfold synthCand at h
  by_cases hi : i = 0 <;> by_cases hj : j = 0
  · omega
  · exfalso
    rw [if_pos hi, if_neg hj] at h
    have hdata := congrArg String.data h
    simp only [string_append_data, List.append_assoc] at hdata
    have hnil := List.self_eq_append_right.mp hdata
    have := congrArg List.length hnil
    simp [List.length_append] at this
  · exfalso
    rw [if_neg hi, if_pos hj] at h
    have hdata := congrArg String.data h
    simp only [string_append_data, List.append_assoc] at hdata
    have hnil := List.self_eq_append_right.mp hdata.symm
    have := congrArg List.length hnil
    simp [List.length_append] at this
  · rw [if_neg hi, if_neg hj] at h
    have hdata := congrArg String.data h
    simp only [string_append_data, List.append_assoc] at hdata
    have hcancel := List.append_cancel_left hdata
    have hrepr : natRepr i = natRepr j :=
      String.ext (List.append_cancel_left hcancel)
    exact natRepr_injective hrepr

theorem findFreeNameAux_spec (cand : Nat → String) (taken : List String) :
    ∀ fuel i, ∃ k, i ≤ k ∧ k ≤ i + fuel ∧
      findFreeNameAux cand taken fuel i = cand k ∧
      (∀ j, i ≤ j → j < k → cand j ∈ taken) ∧
      (cand k ∉ taken ∨ k = i + fuel) := by
  intro fuel
  induction fuel with
  | zero =>
    intro i
    by_cases h : cand i ∈ taken
    · refine ⟨i, le_rfl, by omega, ?_, fun j h1 h2 => by omega, Or.inr (by omega)⟩
      rw [findFreeNameAux, if_pos h]
    · refine ⟨i, le_rfl, by omega, ?_, fun j h1 h2 => by omega, Or.inl h⟩
      rw [findFreeNameAux, if_neg h]
  | succ f ih =>
    intro i
    by_cases h : cand i ∈ taken
    · obtain ⟨k, h1, h2, h3, h4, h5⟩ := ih (i + 1)
      refine ⟨k, by omega, by omega, ?_, ?_, ?_⟩
      · rw [findFreeNameAux, if_pos h]
        exact h3
      · intro j hj1 hj2
        rcases Nat.lt_or_ge j (i + 1) with hj | hj
        · have hj' : j = i := by omega
          subst hj'
          exact h
        · exact h4 j hj hj2
      · rcases h5 with h5 | h5
        · exact Or.inl h5
        · exact Or.inr (by omega)
    · refine ⟨i, le_rfl, by omega, ?_, fun j h1 h2 => by omega, Or.inl h⟩
      rw [findFreeNameAux, if_neg h]

/-- The collision loop returns the first free candidate: for injective
candidate families a free candidate always exists within the fuel bound
(pigeonhole), so the result is never a taken name and every earlier
candidate was taken. -/
theorem findFreeName_spec (cand : Nat → String) (taken : List String)
    (hinj : Function.Injective cand) :
    ∃ k, findFreeName cand taken = cand k ∧ cand k ∉ taken ∧
      ∀ j < k, cand j ∈ taken := by
  obtain ⟨k, h1, h2, h3, h4, h5⟩ := findFreeNameAux_spec cand taken (taken.length + 1) 0
  refine ⟨k, h3, ?_, fun j hj => h4 j (by omega) hj⟩
  rcases h5 with h5 | h5
  · exact h5
  · exfalso
    have hsub : (List.range (taken.length + 1)).map cand ⊆ taken := by
      intro x hx
      obtain ⟨j, hj, rfl⟩ := List.mem_map.mp hx
      rw [List.mem_range] at hj
      exact h4 j (by omega) (by omega)
    have hnodup : ((List.range (taken.length + 1)).map cand).Nodup :=
      (List.nodup_range _).map hinj
    have hlen := (hnodup.subperm hsub).length_le
    simp only [List.length_map, List.length_range] at hlen
    omega

theorem hexDigitsAux_length_le :
    ∀ fuel n k, n < 16 ^ k → (hexDigitsAux fuel n).length ≤ k := by
  intro fuel
  induction fuel with
  | zero => intro n k _; simp [hexDigitsAux]
  | succ f ih =>
    intro n k h
    rw [hexDigitsAux]
    by_cases hn : n = 0
    · simp [hn]
    · rw [if_neg hn, List.length_append]
      have hk : k ≠ 0 := by
        intro hk0
        subst hk0
        simp at h
        omega
      obtain ⟨k', rfl⟩ : ∃ k', k = k' + 1 := ⟨k - 1, by omega⟩
      have hdiv : n / 16 < 16 ^ k' := by
        rw [Nat.div_lt_iff_lt_mul (by norm_num)]
        calc n < 16 ^ (k' + 1) := h
          _ = 16 ^ k' * 16 := by rw [pow_succ]
      have := ih _ _ hdiv
      simp only [List.length_cons, List.length_nil]
      omega

theorem hexDigits_length_le (k n : Nat) (h : n < 16 ^ k) : (hexDigits n).length ≤ k :=
  hexDigitsAux_length_le n n k h

/-- The shape of synthesized names: `u` followed by the uppercase hex of the
codepoint, zero-padded to 4 digits (to 5 above `0xFFFF`). -/
theorem synthesize_glyph_name_shape (cp : Nat) :
    (synthesize_glyph_name cp).data.head? = some 'u' ∧
      (cp ≤ 0xFFFF → (synthesize_glyph_name cp).data.length = 5) ∧
      (0xFFFF < cp → cp ≤ 0xFFFFF → (synthesize_glyph_name cp).data.length = 6) := by
  refine ⟨?_, ?_, ?_⟩
  · unfold synthesize_glyph_name
    by_cases h : cp ≤ 0xFFFF
    · rw [if_pos h]; rfl
    · rw [if_neg h]; rfl
  · intro h
    unfold synthesize_glyph_name
    rw [if_pos h]
    have hlen : (hexDigits cp).length ≤ 4 := hexDigits_length_le 4 cp (by norm_num; omega)
    have : (pyHexPad cp 4).data.length = 4 := by
      unfold pyHexPad
      simp only [List.length_append, List.length_replicate]
      omega
    rw [string_append_data, List.length_append, this]
    rfl
  · intro h1 h2
    unfold synthesize_glyph_name
    rw [if_neg (by omega)]
    have hlen : (hexDigits cp).length ≤ 5 := hexDigits_length_le 5 cp (by norm_num; omega)
    have : (pyHexPad cp 5).data.length = 5 := by
      unfold pyHexPad
      simp only [List.length_append, List.length_replicate]
      omega
    rw [string_append_data, List.length_append, this]
    rfl

theorem planGlyphs_mem (env : UnicodeEnv) (eh eg b : Bool) (covered : List Nat)
    (taken : List String) :
    ∀ l (gi : Planned), gi ∈ planGlyphs env eh eg b covered taken l →
      gi.codepoints ≠ [] ∧
      (∃ cps, (gi.sourceName, cps) ∈ l ∧
        gi.codepoints = survivingCodepoints env eh eg b covered cps) ∧
      gi.targetName =
        (if b then gi.sourceName
         else findFreeName (synthCand (listMin gi.codepoints)) taken) := by
  intro l
  induction l with
  | nil => intro gi h; simp [planGlyphs] at h
  | cons hd tl ih =>
    intro gi h
    obtain ⟨name, cps⟩ := hd
    rw [planGlyphs] at h
    by_cases he : (survivingCodepoints env eh eg b covered cps).isEmpty
    · rw [if_pos he] at h
      obtain ⟨h1, ⟨cps', h2, h3⟩, h4⟩ := ih gi h
      exact ⟨h1, ⟨cps', List.mem_cons_of_mem _ h2, h3⟩, h4⟩
    · rw [if_neg he] at h
      rcases List.mem_cons.mp h with hgi | hgi
      · subst hgi
        refine ⟨?_, ⟨cps, List.mem_cons_self _ _, rfl⟩, rfl⟩
        intro hc
        rw [List.isEmpty_iff] at he
        exact he hc
      · obtain ⟨h1, ⟨cps', h2, h3⟩, h4⟩ := ih gi hgi
        exact ⟨h1, ⟨cps', List.mem_cons_of_mem _ h2, h3⟩, h4⟩

/-- Source font for the base-font naming collision: its glyph `A` carries a
codepoint (U+0042) the target does not yet cover (concrete test input). -/
def baseCollisionSource : Font :=
  ⟨1000, [".notdef", "A"], [(0x42, "A")], some [("A", simpleGlyph)], some []⟩

/-- Target font already containing a glyph named `A` (concrete test
input). -/
def baseCollisionTarget : Font :=
  ⟨1000, [".notdef", "A"], [], some [("A", ⟨[(7, 7)], 0, 0, 7, 7, []⟩)], some []⟩

/-- Counterexample to C3: in base-font mode the source glyph `A` collides
with the target's existing `A`, yet NO numeric suffix is appended — the name
`A.1` is never created, the glyph order is unchanged, and the target's `A`
outline is silently overwritten by the source glyph (`glyphsAdded` still
counts 1). -/
theorem base_font_collision_counterexample :
    merge_glyphs_from_font envTrivial baseCollisionSource baseCollisionTarget
        true true true =
      some ⟨baseCollisionSource,
        ⟨1000, [".notdef", "A"], [(0x42, "A")], some [("A", simpleGlyph)], some []⟩,
        1, 1, false⟩ ∧
      ("A.1" ∈ ([".notdef", "A"] : List String) → False) :=
  ⟨by decide, by decide⟩

/-- C3 (amended): when `is_base_font` is true every accepted source glyph
keeps its original name unconditionally — no collision suffix is appended
even if the name is already taken (the existing target glyph is
overwritten); when `is_base_font` is false the target name is the first free
candidate among `u`+hex(smallest surviving codepoint), then `.1`, `.2`, …:
it is not a taken name, and every earlier candidate was taken.  The
synthesized base name is `u` followed by the uppercase hex digits of the
codepoint, zero-padded to 4 digits (to 5 when the codepoint exceeds
`0xFFFF`). -/
theorem glyph_naming_rule (env : UnicodeEnv) (eh eg b : Bool)
    (covered : List Nat) (taken : List String) (l : List (String × List Nat))
    (gi : Planned)
    (hmem : gi ∈ planGlyphs env eh eg b covered taken l) :
    (b = true → gi.targetName = gi.sourceName) ∧
    (b = false → ∃ k, gi.targetName = synthCand (listMin gi.codepoints) k ∧
      gi.targetName ∉ taken ∧
      ∀ j < k, synthCand (listMin gi.codepoints) j ∈ taken) ∧
    (∀ cp, (synthesize_glyph_name cp).data.head? = some 'u' ∧
      (cp ≤ 0xFFFF → (synthesize_glyph_name cp).data.length = 5) ∧
      (0xFFFF < cp → cp ≤ 0xFFFFF → (synthesize_glyph_name cp).data.length = 6)) := by
  obtain ⟨h1, _, h3⟩ := planGlyphs_mem env eh eg b covered taken l gi hmem
  refine ⟨?_, ?_, fun cp => synthesize_glyph_name_shape cp⟩
  · intro hb
    rw [h3, if_pos hb]
  · intro hb
    rw [hb] at h3
    rw [if_neg (by simp)] at h3
    obtain ⟨k, hk1, hk2, hk3⟩ :=
      findFreeName_spec (synthCand (listMin gi.codepoints)) taken
        (synthCand_injective _)
    refine ⟨k, h3.trans hk1, ?_, hk3⟩
    rw [h3, hk1]
    exact hk2

/-- Witness for C3 (amended): a supplement glyph for U+0042 whose
synthesized name `u0042` is already taken gets the collision-extended name,
which is not a taken name. -/
theorem glyph_naming_rule_witness :
    (⟨"B", "u0042.1", [0x42]⟩ : Planned) ∈
        planGlyphs envTrivial true true false [] ["u0042"] [("B", [0x42])] ∧
      ("u0042.1" : String) ∉ ["u0042"] := by
  have hmem : (⟨"B", "u0042.1", [0x42]⟩ : Planned) ∈
      planGlyphs envTrivial true true false [] ["u0042"] [("B", [0x42])] := by decide
  have h := (glyph_naming_rule envTrivial true true false [] ["u0042"]
    [("B", [0x42])] _ hmem).2.1 rfl
  obtain ⟨k, _, hfree, _⟩ := h
  exact ⟨hmem, hfree⟩

/-- A script provider classifying U+3005 (IDEOGRAPHIC ITERATION MARK, a Han
codepoint outside every documented block range) as Han
(concrete test input). -/
def scriptHan3005 : Nat → Option String :=
  fun cp => if cp = 0x3005 then some "Hani" else some "Zzzz"

/-- Counterexample to C9: U+3005 lies outside every documented block range
of `exclude.py` and is not in the extra-exclude set, yet
`should_exclude_codepoint` with the Han toggle enabled returns `true`
(the script-property path classifies it as Han), not `false` as claimed. -/
theorem should_exclude_outside_ranges_counterexample :
    is_in_han_range 0x3005 = false ∧ is_in_hangul_range 0x3005 = false ∧
      is_in_tangut_range 0x3005 = false ∧
      should_exclude_codepoint scriptHan3005 0x3005 true false false [] = true := by
  decide

/-- C9 (amended): for a codepoint in a documented script block range, the
exclusion check with that script's toggle enabled returns `true` (whatever
the script provider says); for a codepoint outside all documented ranges it
returns `false`, unless it is in the extra-exclude set or the
script-property lookup classifies it as one of the policy scripts. -/
theorem should_exclude_codepoint_ranges (script : Nat → Option String) (cp : Nat)
    (exclude_hani exclude_hang exclude_tang : Bool) (extra_excludes : List Nat) :
    (exclude_hani = true → is_in_han_range cp = true →
      should_exclude_codepoint script cp exclude_hani exclude_hang exclude_tang
        extra_excludes = true) ∧
    (exclude_hang = true → is_in_hangul_range cp = true →
      should_exclude_codepoint script cp exclude_hani exclude_hang exclude_tang
        extra_excludes = true) ∧
    (exclude_tang = true → is_in_tangut_range cp = true →
      should_exclude_codepoint script cp exclude_hani exclude_hang exclude_tang
        extra_excludes = true) ∧
    (cp ∉ extra_excludes → is_in_han_range cp = false →
      is_in_hangul_range cp = false → is_in_tangut_range cp = false →
      (∀ s, script cp = some s →
        s ≠ "Han" ∧ s ≠ "Hani" ∧ s ≠ "Hangul" ∧ s ≠ "Hang" ∧
          s ≠ "Tangut" ∧ s ≠ "Tang") →
      should_exclude_codepoint script cp exclude_hani exclude_hang exclude_tang
        extra_excludes = false) := by
  refine ⟨?_, ?_, ?_, ?_⟩
  · intro he hr
    subst he
    by_cases hx : extra_excludes.contains cp <;>
      simp [should_exclude_codepoint, is_han_script, hx, hr]
  · intro he hr
    subst he
    by_cases hx : extra_excludes.contains cp <;>
      by_cases hh : exclude_hani && is_han_script script cp <;>
        simp [should_exclude_codepoint, is_hangul_script, hx, hh, hr]
  · intro he hr
    subst he
    by_cases hx : extra_excludes.contains cp <;>
      by_cases hh : exclude_hani && is_han_script script cp <;>
        by_cases hg : exclude_hang && is_hangul_script script cp <;>
          simp [should_exclude_codepoint, is_tangut_script, hx, hh, hg, hr]
  · intro hx h1 h2 h3 hs
    have hxc : extra_excludes.contains cp = false := by
      simpa using hx
    have hhan : is_han_script script cp = false := by
      cases hsc : script cp with
      | none => simp [is_han_script, hsc, h1]
      | some s =>
        obtain ⟨a, b, _, _, _, _⟩ := hs s hsc
        simp [is_han_script, hsc, h1, a, b]
    have hhang : is_hangul_script script cp = false := by
      cases hsc : script cp with
      | none => simp [is_hangul_script, hsc, h2]
      | some s =>
        obtain ⟨_, _, a, b, _, _⟩ := hs s hsc
        simp [is_hangul_script, hsc, h2, a, b]
    have htang : is_tangut_script script cp = false := by
      cases hsc : script cp with
      | none => simp [is_tangut_script, hsc, h3]
      | some s =>
        obtain ⟨_, _, _, _, a, b⟩ := hs s hsc
        simp [is_tangut_script, hsc, h3, a, b]
    simp [should_exclude_codepoint, hx, hxc, hhan, hhang, htang]

/-- Witness for C9 (amended) at concrete codepoints: U+4E00 (in the first
Han block) is excluded with the Han toggle on; U+0041 (Latin) is not
excluded even with all toggles on. -/
theorem should_exclude_codepoint_ranges_witness :
    should_exclude_codepoint (fun _ => some "Latn") 0x4E00 true false false [] = true ∧
      should_exclude_codepoint (fun _ => some "Latn") 0x41 true true true [] = false := by
  constructor
  · exact (should_exclude_codepoint_ranges (fun _ => some "Latn") 0x4E00
      true false false []).1 rfl (by decide)
  · refine (should_exclude_codepoint_ranges (fun _ => some "Latn") 0x41
      true true true []).2.2.2 (by decide) (by decide) (by decide) (by decide) ?_
    intro s hs
    simp only [Option.some.injEq] at hs
    subst hs
    decide

/-- C6 (amended): merging the same source font into the same target twice in
succession adds zero new glyphs and zero new codepoints on the second call,
provided the first call was not cut short by the glyph ceiling (its
`hitLimit` flag is false): every codepoint the first call accepted is
registered in the target's codepoint table and filtered as covered on the
second call, and a glyph whose copy failed the first time fails identically
the second time. -/
theorem merge_idempotent (env : UnicodeEnv) (src tgt : Font) (eh eg b : Bool)
    (r1 : MergeResult)
    (h1 : merge_glyphs_from_font env src tgt eh eg b = some r1)
    (hnl : r1.hitLimit = false) :
    ∃ r2, merge_glyphs_from_font env r1.source r1.target eh eg b = some r2 ∧
      r2.glyphsAdded = 0 ∧ r2.codepointsAdded = 0 := by
  unfold merge_glyphs_from_font at h1
  by_cases hb : is_truetype_font src = true
  case neg =>
    have hb' : (!is_truetype_font src) = true := by
      simp [Bool.not_eq_true] at hb ⊢
      exact hb
    rw [if_pos hb'] at h1
    have hr1 := (Option.some.inj h1).symm
    refine ⟨⟨src, tgt, 0, 0, false⟩, ?_, rfl, rfl⟩
    rw [hr1]
    unfold merge_glyphs_from_font
    rw [if_pos hb']
  case pos =>
    rw [if_neg (by simp [hb])] at h1
    dsimp only at h1
    set src' := normalizeSourceUpm src (get_upm tgt) with hsrc'
    have hsome : src'.glyf.isSome = true := by
      rw [hsrc', normalizeSourceUpm_glyf_isSome]
      exact hb
    obtain ⟨sglyf, hsg⟩ := Option.isSome_iff_exists.mp hsome
    have htt2 : is_truetype_font src' = true := hsome
    have hnorm2 : normalizeSourceUpm src' (get_upm tgt) = src' := by
      rw [hsrc']
      exact normalizeSourceUpm_idem src (get_upm tgt)
    by_cases h2 : MAX_GLYPHS ≤ tgt.glyphOrder.length
    · rw [if_pos h2] at h1
      have hr1 := (Option.some.inj h1).symm
      refine ⟨⟨src', tgt, 0, 0, false⟩, ?_, rfl, rfl⟩
      rw [hr1]
      unfold merge_glyphs_from_font
      dsimp only
      rw [if_neg (by simp [htt2]), hnorm2, if_pos h2]
    · rw [if_neg h2] at h1
      cases hrun : copyLoop src' b tgt.glyphOrder.length
          (planGlyphs env eh eg b ((get_unicode_to_glyph_map tgt).map Prod.fst)
            tgt.glyphOrder (build_glyph_to_codepoints_map src'))
          ⟨tgt, tgt.glyphOrder, (get_unicode_to_glyph_map tgt).map Prod.fst,
            [], 0, 0, false⟩ with
      | none => rw [hrun] at h1; exact absurd h1 (by simp)
      | some st =>
        rw [hrun] at h1
        have hr1 := (Option.some.inj h1).symm
        have hhl : st.hitLimit = false := by
          rw [hr1] at hnl
          exact hnl
        obtain ⟨p1, p2, p3, p4, p5, p6, p7⟩ :=
          copyLoop_spec src' sglyf hsg b tgt.glyphOrder.length _ _ _ hrun hhl
        have hck0 : CoveredKeys ⟨tgt, tgt.glyphOrder,
            (get_unicode_to_glyph_map tgt).map Prod.fst, [], 0, 0, false⟩ := by
          intro cp hcp
          exact (dget_isSome_iff_mem_keys tgt.cmap cp).mpr hcp
        have hck : CoveredKeys st := p5 hck0
        rw [hr1]
        dsimp only
        have hgu : get_upm st.target = get_upm tgt := p4
        unfold merge_glyphs_from_font
        rw [if_neg (by simp [htt2])]
        dsimp only
        rw [hgu, hnorm2]
        by_cases h2' : MAX_GLYPHS ≤ st.target.glyphOrder.length
        · rw [if_pos h2']
          exact ⟨⟨src', st.target, 0, 0, false⟩, rfl, rfl, rfl⟩
        · rw [if_neg h2']
          have hboth : ∀ gi ∈ planGlyphs env eh eg b
              ((get_unicode_to_glyph_map st.target).map Prod.fst)
              st.target.glyphOrder (build_glyph_to_codepoints_map src'),
              (st.target.glyf = none ∨ dget sglyf gi.sourceName = none) ∧
                (get_component_glyphs src' gi.sourceName).isSome := by
            intro gi hgi
            obtain ⟨hne, ⟨cps, hmem, hcps⟩, _⟩ := planGlyphs_mem env eh eg b
              ((get_unicode_to_glyph_map st.target).map Prod.fst)
              st.target.glyphOrder (build_glyph_to_codepoints_map src') gi hgi
            obtain ⟨cp, hcp⟩ := List.exists_mem_of_ne_nil _ hne
            rw [hcps, mem_survivingCodepoints] at hcp
            obtain ⟨hcp1, hcp2, hcp3, hcp4⟩ := hcp
            have hnk : ¬(dget st.target.cmap cp).isSome = true := by
              intro hk
              exact hcp2 ((dget_isSome_iff_mem_keys st.target.cmap cp).mp hk)
            have hnc1 : cp ∉ (get_unicode_to_glyph_map tgt).map Prod.fst := by
              intro hc1
              exact hnk (p2 cp ((dget_isSome_iff_mem_keys tgt.cmap cp).mpr hc1))
            have hs1 : cp ∈ survivingCodepoints env eh eg b
                ((get_unicode_to_glyph_map tgt).map Prod.fst) cps := by
              rw [mem_survivingCodepoints]
              exact ⟨hcp1, hnc1, hcp3, hcp4⟩
            have hne1 : survivingCodepoints env eh eg b
                ((get_unicode_to_glyph_map tgt).map Prod.fst) cps ≠ [] := by
              intro h0
              rw [h0] at hs1
              exact absurd hs1 (List.not_mem_nil cp)
            obtain ⟨gi1, hgi1, hname, hcps1⟩ := planGlyphs_complete env eh eg b
              ((get_unicode_to_glyph_map tgt).map Prod.fst) tgt.glyphOrder
              (build_glyph_to_codepoints_map src') gi.sourceName cps hmem hne1
            obtain ⟨hgcg1, hdisj⟩ := p7 gi1 hgi1
            rcases hdisj with hd | hd | hd
            · refine ⟨Or.inl (option_none_of_isSome_eq p3.symm hd), ?_⟩
              rw [← hname]
              exact hgcg1
            · rw [hname] at hd
              refine ⟨Or.inr hd, ?_⟩
              rw [get_component_glyphs_not_in_glyf src' sglyf gi.sourceName hsg hd]
              rfl
            · exfalso
              have hcpin : cp ∈ gi1.codepoints := by
                rw [hcps1]
                exact hs1
              exact hnk (hck cp (hd cp hcpin))
          obtain ⟨st2, hrun2, hadd, hcadd⟩ :=
            copyLoop_allFail src' sglyf hsg b st.target.glyphOrder.length
              (planGlyphs env eh eg b
                ((get_unicode_to_glyph_map st.target).map Prod.fst)
                st.target.glyphOrder (build_glyph_to_codepoints_map src'))
              ⟨st.target, st.target.glyphOrder,
                (get_unicode_to_glyph_map st.target).map Prod.fst, [], 0, 0, false⟩
              (fun gi hgi => (hboth gi hgi).1)
              (fun gi hgi => (hboth gi hgi).2)
          rw [hrun2]
          exact ⟨⟨src', st2.target, st2.glyphsAdded, st2.codepointsAdded,
            st2.hitLimit⟩, rfl, hadd, hcadd⟩

/-- Filler glyph names `g0`, `g1`, … (concrete test input for ceiling
scenarios). -/
def gName (i : Nat) : String := ⟨'g' :: natDigits i⟩

/-- 65532 filler names (concrete test input). -/
def fillerNames : List String := (List.range 65532).map gName

/-- A glyph order of 65534 names: `.notdef`, `A`, and the fillers (concrete
test input). -/
def bigOrder : List String := ".notdef" :: "A" :: fillerNames

/-- The target's pre-existing `A` glyph (concrete test input). -/
def bigGlyphA : Glyph := ⟨[(7, 7)], 0, 0, 7, 7, []⟩

/-- The near-ceiling target font with an abstract glyph order, so that facts
about the 65534-name order can be used symbolically instead of being
evaluated. -/
def bigTargetL (L : List String) : Font :=
  ⟨1000, L, [], some [("A", bigGlyphA)], some []⟩

/-- A target font holding 65534 glyphs, one below the ceiling (concrete test
input). -/
def bigTarget : Font := bigTargetL bigOrder

theorem fillerNames_length : fillerNames.length = 65532 := by
  unfold fillerNames
  rw [List.length_map, List.length_range]

theorem bigOrder_length : bigOrder.length = 65534 := by
  unfold bigOrder
  rw [List.length_cons, List.length_cons, fillerNames_length]

theorem mem_fillerNames_head {s : String} (h : s ∈ fillerNames) :
    s.data.head? = some 'g' := by
  obtain ⟨i, _, rfl⟩ := List.mem_map.mp h
  rfl

theorem not_mem_bigOrder (s : String) (h1 : s ≠ ".notdef") (h2 : s ≠ "A")
    (h3 : s.data.head? ≠ some 'g') : s ∉ bigOrder := by
  intro hmem
  rcases List.mem_cons.mp hmem with h | hmem
  · exact h1 h
  rcases List.mem_cons.mp hmem with h | hmem
  · exact h2 h
  · exact h3 (mem_fillerNames_head hmem)

theorem B_not_mem_bigOrder : ("B" : String) ∉ bigOrder :=
  not_mem_bigOrder "B" (by decide) (by decide) (by decide)

theorem P_not_mem_bigOrder : ("P" : String) ∉ bigOrder :=
  not_mem_bigOrder "P" (by decide) (by decide) (by decide)

theorem Q_not_mem_bigOrder : ("Q" : String) ∉ bigOrder :=
  not_mem_bigOrder "Q" (by decide) (by decide) (by decide)

theorem A_mem_bigOrder : ("A" : String) ∈ bigOrder := by
  unfold bigOrder
  exact List.mem_cons_of_mem _ (List.mem_cons_self _ _)

/-- Closed-form result of a successful `copy_glyph` (for sources without
metrics, as in the test fonts). -/
theorem copy_glyph_eval (sf tf : Font) (sn tn : String)
    (m : List (String × String)) (sglyf : List (String × Glyph)) (sg : Glyph)
    (tglyf : List (String × Glyph)) (tm : List (String × (Int × Int)))
    (h1 : sf.glyf = some sglyf) (h2 : tf.glyf = some tglyf)
    (h3 : dget sglyf sn = some sg) (h4 : sf.hmtx = some [])
    (h5 : tf.hmtx = some tm) :
    copy_glyph sf tf sn tn m =
      some ⟨tf.upm,
        if tn ∈ tf.glyphOrder then tf.glyphOrder else tf.glyphOrder ++ [tn],
        tf.cmap, some (dset tn (renameComponents m sg) tglyf), some tm⟩ := by
  unfold copy_glyph
  rw [h1, h2]
  dsimp only
  rw [h3]
  dsimp only
  rw [h4, h5]
  dsimp only [dget]

/-- In base-font mode planning never consults the used-name set. -/
theorem planGlyphs_base_taken (env : UnicodeEnv) (eh eg : Bool) (cov : List Nat) :
    ∀ l taken₁ taken₂, planGlyphs env eh eg true cov taken₁ l =
      planGlyphs env eh eg true cov taken₂ l := by
  intro l
  induction l with
  | nil => intro t1 t2; rfl
  | cons hd tl ih =>
    intro t1 t2
    obtain ⟨n, cps⟩ := hd
    rw [planGlyphs, planGlyphs]
    by_cases he : (survivingCodepoints env eh eg true cov cps).isEmpty
    · rw [if_pos he, if_pos he]
      exact ih t1 t2
    · rw [if_neg he, if_neg he]
      rw [ih t1 t2]
      simp only [eq_self_iff_true, if_true]

/-- Composite source glyph `P` referencing component `Q` (concrete test
input). -/
def c1GlyphP : Glyph := ⟨[(3, 4)], 0, 0, 9, 9, [⟨"Q", 0, 0⟩]⟩

/-- Source font for the ceiling-overflow scenario: glyph `P` (composite over
`Q`) mapped from U+0050 (concrete test input). -/
def c1Source : Font :=
  ⟨1000, ["P", "Q"], [(0x50, "P")],
    some [("P", c1GlyphP), ("Q", simpleGlyph)], some []⟩

/-- Full evaluation of the overflow merge: with the target one glyph below
the ceiling, the outer check passes for `P`, the guarded component copy of
`Q` reaches the ceiling exactly, and the unguarded primary copy of `P`
still lands — two glyphs are added and the glyph order grows to 65536. -/
theorem c1_eval (L : List String) (hlen : L.length = 65534)
    (hP : ("P" : String) ∉ L) (hQ : ("Q" : String) ∉ L) :
    merge_glyphs_from_font envTrivial c1Source (bigTargetL L) true true true =
      some ⟨c1Source,
        ⟨1000, (L ++ ["Q"]) ++ ["P"], [(0x50, "P")],
          some [("A", bigGlyphA), ("Q", simpleGlyph), ("P", c1GlyphP)],
          some []⟩,
        2, 1, false⟩ := by
  have hPapp : ("P" : String) ∉ L ++ ["Q"] := by
    intro h
    rcases List.mem_append.mp h with h | h
    · exact hP h
    · exact absurd h (by decide)
  have hQfree : findFreeName (compCand true "Q") L = "Q" := by
    unfold findFreeName
    rw [findFreeNameAux]
    have hc : compCand true "Q" 0 = "Q" := by decide
    rw [hc, if_neg hQ]
  have hg2c : build_glyph_to_codepoints_map c1Source = [("P", [0x50])] := by decide
  have hplan : planGlyphs envTrivial true true true [] L [("P", [0x50])] =
      [⟨"P", "P", [0x50]⟩] :=
    (planGlyphs_base_taken envTrivial true true [] [("P", [0x50])] L []).trans
      (by decide)
  have hcg : get_component_glyphs c1Source "P" = some ["Q"] := by decide
  have hds1 : dset "Q" (renameComponents [] simpleGlyph) [("A", bigGlyphA)] =
      [("A", bigGlyphA), ("Q", simpleGlyph)] := by decide
  have hcopyQ : copy_glyph c1Source (bigTargetL L) "Q" "Q" [] =
      some ⟨1000, L ++ ["Q"], [],
        some [("A", bigGlyphA), ("Q", simpleGlyph)], some []⟩ := by
    have h := copy_glyph_eval c1Source (bigTargetL L) "Q" "Q" []
      [("P", c1GlyphP), ("Q", simpleGlyph)] simpleGlyph [("A", bigGlyphA)] []
      rfl rfl (by decide) rfl rfl
    rw [h]
    dsimp only [bigTargetL]
    rw [if_neg hQ, hds1]
  have hds2 : dset "P" (renameComponents [("Q", "Q")] c1GlyphP)
      [("A", bigGlyphA), ("Q", simpleGlyph)] =
      [("A", bigGlyphA), ("Q", simpleGlyph), ("P", c1GlyphP)] := by decide
  have hcopyP : copy_glyph c1Source
      (⟨1000, L ++ ["Q"], [],
        some [("A", bigGlyphA), ("Q", simpleGlyph)], some []⟩ : Font)
      "P" "P" [("Q", "Q")] =
      some ⟨1000, (L ++ ["Q"]) ++ ["P"], [],
        some [("A", bigGlyphA), ("Q", simpleGlyph), ("P", c1GlyphP)],
        some []⟩ := by
    have h := copy_glyph_eval c1Source
      (⟨1000, L ++ ["Q"], [],
        some [("A", bigGlyphA), ("Q", simpleGlyph)], some []⟩ : Font)
      "P" "P" [("Q", "Q")] [("P", c1GlyphP), ("Q", simpleGlyph)] c1GlyphP
      [("A", bigGlyphA), ("Q", simpleGlyph)] [] rfl rfl (by decide) rfl rfl
    rw [h]
    dsimp only
    rw [if_neg hPapp, hds2]
  have hQcond : ¬(("Q" : String) ∈ L ∨
      (dget ([] : List (String × String)) "Q").isSome = true) := by
    rintro (h | h)
    · exact hQ h
    · exact absurd h (by decide)
  have hm1 : dset "Q" "Q" ([] : List (String × String)) = [("Q", "Q")] := by
    decide
  have hsadd1 : setAdd L "Q" = L ++ ["Q"] := by
    unfold setAdd
    rw [if_neg hQ]
  have hm2 : dset "P" "P" [(("Q" : String), ("Q" : String))] =
      [("Q", "Q"), ("P", "P")] := by decide
  have hsadd2 : setAdd (L ++ ["Q"]) "P" = (L ++ ["Q"]) ++ ["P"] := by
    unfold setAdd
    rw [if_neg hPapp]
  have hnorm : normalizeSourceUpm c1Source (get_upm (bigTargetL L)) =
      c1Source := by
    unfold normalizeSourceUpm
    dsimp only
    have hceq : get_upm c1Source = get_upm (bigTargetL L) := rfl
    rw [if_pos (Or.inl hceq)]
  unfold merge_glyphs_from_font
  rw [if_neg (by decide : ¬((!is_truetype_font c1Source) = true))]
  dsimp only
  rw [hnorm]
  have hord : (bigTargetL L).glyphOrder = L := rfl
  have hcov : (get_unicode_to_glyph_map (bigTargetL L)).map Prod.fst =
      ([] : List Nat) := rfl
  rw [hord, hlen, hcov]
  rw [if_neg (by decide : ¬(MAX_GLYPHS ≤ 65534))]
  rw [hg2c, hplan]
  rw [copyLoop]
  dsimp only
  rw [if_neg (by decide : ¬(MAX_GLYPHS ≤ 65534 + 0))]
  rw [hcg]
  dsimp only
  rw [compLoop]
  dsimp only
  rw [if_neg hQcond]
  rw [if_neg (by decide : ¬(MAX_GLYPHS ≤ 65534 + 0))]
  rw [hQfree, hcopyQ]
  dsimp only
  rw [hm1, hsadd1]
  rw [compLoop]
  rw [hcopyP]
  dsimp only
  rw [hm2, hsadd2]
  rw [registerCodepoints]
  dsimp only [add_cmap_entry]
  rw [registerCodepoints]
  rw [copyLoop]
  dsimp only
  rw [show dset 80 "P" ([] : List (Nat × String)) = [(80, "P")] from by decide]

/-- C1: REFUTED — the glyph ceiling is not enforced before each individual
copy.  Merging a source offering a composite glyph `P` (over component `Q`)
into a target holding 65534 glyphs adds TWO glyphs, not at most one: the
component copy is guarded and lands exactly at the 65535 ceiling, but the
primary copy that follows it is unguarded, so the target ends at 65536
glyphs, strictly above `MAX_GLYPHS`, and no break is recorded. -/
theorem ceiling_overflow_on_component_copy :
    ∃ r, merge_glyphs_from_font envTrivial c1Source bigTarget true true true =
        some r ∧
      r.hitLimit = false ∧ r.glyphsAdded = 2 ∧
      r.target.glyphOrder.length = 65536 ∧
      MAX_GLYPHS < r.target.glyphOrder.length := by
  refine ⟨_, c1_eval bigOrder bigOrder_length P_not_mem_bigOrder Q_not_mem_bigOrder,
    rfl, rfl, ?_, ?_⟩
  · show ((bigOrder ++ ["Q"]) ++ ["P"]).length = 65536
    rw [List.length_append, List.length_append, bigOrder_length]
    decide
  · show MAX_GLYPHS < ((bigOrder ++ ["Q"]) ++ ["P"]).length
    rw [List.length_append, List.length_append, bigOrder_length]
    decide

/-- Source font for the idempotence counterexample: glyphs `A` and `B`
mapped from U+0041 and U+0042 (concrete test input). -/
def cexSource : Font :=
  ⟨1000, ["A", "B"], [(0x41, "A"), (0x42, "B")],
    some [("A", simpleGlyph), ("B", simpleGlyph)], some []⟩

/-- First pass of the idempotence counterexample: against the 65534-glyph
target, `A` is copied (in place, base mode) and the ceiling break then
fires before `B` — the call returns (1, 1) with the break recorded. -/
theorem cex_pass1 (L : List String) (hlen : L.length = 65534)
    (hA : ("A" : String) ∈ L) :
    merge_glyphs_from_font envTrivial cexSource (bigTargetL L) true true true =
      some ⟨cexSource,
        ⟨1000, L, [(0x41, "A")], some [("A", simpleGlyph)], some []⟩,
        1, 1, true⟩ := by
  have hg2c : build_glyph_to_codepoints_map cexSource =
      [("A", [0x41]), ("B", [0x42])] := by decide
  have hplan : planGlyphs envTrivial true true true [] L
      [("A", [0x41]), ("B", [0x42])] =
      [⟨"A", "A", [0x41]⟩, ⟨"B", "B", [0x42]⟩] :=
    (planGlyphs_base_taken envTrivial true true []
      [("A", [0x41]), ("B", [0x42])] L []).trans (by decide)
  have hcgA : get_component_glyphs cexSource "A" = some [] := by decide
  have hdsA : dset "A" (renameComponents [] simpleGlyph) [("A", bigGlyphA)] =
      [("A", simpleGlyph)] := by decide
  have hcopyA : copy_glyph cexSource (bigTargetL L) "A" "A" [] =
      some ⟨1000, L, [], some [("A", simpleGlyph)], some []⟩ := by
    have h := copy_glyph_eval cexSource (bigTargetL L) "A" "A" []
      [("A", simpleGlyph), ("B", simpleGlyph)] simpleGlyph [("A", bigGlyphA)] []
      rfl rfl (by decide) rfl rfl
    rw [h]
    dsimp only [bigTargetL]
    rw [if_pos hA, hdsA]
  have hmA : dset "A" "A" ([] : List (String × String)) = [("A", "A")] := by
    decide
  have hsaddA : setAdd L "A" = L := by
    unfold setAdd
    rw [if_pos hA]
  have hnorm : normalizeSourceUpm cexSource (get_upm (bigTargetL L)) =
      cexSource := by
    unfold normalizeSourceUpm
    dsimp only
    have hceq : get_upm cexSource = get_upm (bigTargetL L) := rfl
    rw [if_pos (Or.inl hceq)]
  unfold merge_glyphs_from_font
  rw [if_neg (by decide : ¬((!is_truetype_font cexSource) = true))]
  dsimp only
  rw [hnorm]
  have hord : (bigTargetL L).glyphOrder = L := rfl
  have hcov : (get_unicode_to_glyph_map (bigTargetL L)).map Prod.fst =
      ([] : List Nat) := rfl
  rw [hord, hlen, hcov]
  rw [if_neg (by decide : ¬(MAX_GLYPHS ≤ 65534))]
  rw [hg2c, hplan]
  rw [copyLoop]
  dsimp only
  rw [if_neg (by decide : ¬(MAX_GLYPHS ≤ 65534 + 0))]
  rw [hcgA]
  dsimp only
  rw [compLoop]
  rw [hcopyA]
  dsimp only
  rw [hmA, hsaddA]
  rw [registerCodepoints]
  dsimp only [add_cmap_entry]
  rw [registerCodepoints]
  rw [copyLoop]
  dsimp only
  rw [if_pos (by decide : MAX_GLYPHS ≤ 65534 + (0 + 1))]
  dsimp only
  rw [show dset 0x41 "A" ([] : List (Nat × String)) = [(0x41, "A")] from by decide]

/-- Second pass of the idempotence counterexample: re-merging the same
source into the updated target adds `B` — (1, 1) again, not (0, 0). -/
theorem cex_pass2 (L : List String) (hlen : L.length = 65534)
    (hB : ("B" : String) ∉ L) :
    merge_glyphs_from_font envTrivial cexSource
      (⟨1000, L, [(0x41, "A")], some [("A", simpleGlyph)], some []⟩ : Font)
      true true true =
      some ⟨cexSource,
        ⟨1000, L ++ ["B"], [(0x41, "A"), (0x42, "B")],
          some [("A", simpleGlyph), ("B", simpleGlyph)], some []⟩,
        1, 1, false⟩ := by
  have hg2c : build_glyph_to_codepoints_map cexSource =
      [("A", [0x41]), ("B", [0x42])] := by decide
  have hplan : planGlyphs envTrivial true true true [0x41] L
      [("A", [0x41]), ("B", [0x42])] = [⟨"B", "B", [0x42]⟩] :=
    (planGlyphs_base_taken envTrivial true true [0x41]
      [("A", [0x41]), ("B", [0x42])] L []).trans (by decide)
  have hcgB : get_component_glyphs cexSource "B" = some [] := by decide
  have hdsB : dset "B" (renameComponents [] simpleGlyph) [("A", simpleGlyph)] =
      [("A", simpleGlyph), ("B", simpleGlyph)] := by decide
  have hcopyB : copy_glyph cexSource
      (⟨1000, L, [(0x41, "A")], some [("A", simpleGlyph)], some []⟩ : Font)
      "B" "B" [] =
      some ⟨1000, L ++ ["B"], [(0x41, "A")],
        some [("A", simpleGlyph), ("B", simpleGlyph)], some []⟩ := by
    have h := copy_glyph_eval cexSource
      (⟨1000, L, [(0x41, "A")], some [("A", simpleGlyph)], some []⟩ : Font)
      "B" "B" [] [("A", simpleGlyph), ("B", simpleGlyph)] simpleGlyph
      [("A", simpleGlyph)] [] rfl rfl (by decide) rfl rfl
    rw [h]
    dsimp only
    rw [if_neg hB, hdsB]
  have hmB : dset "B" "B" ([] : List (String × String)) = [("B", "B")] := by
    decide
  have hsaddB : setAdd L "B" = L ++ ["B"] := by
    unfold setAdd
    rw [if_neg hB]
  have hnorm : normalizeSourceUpm cexSource
      (get_upm (⟨1000, L, [(0x41, "A")], some [("A", simpleGlyph)],
        some []⟩ : Font)) = cexSource := by
    unfold normalizeSourceUpm
    dsimp only
    have hceq : get_upm cexSource =
        get_upm (⟨1000, L, [(0x41, "A")], some [("A", simpleGlyph)],
          some []⟩ : Font) := rfl
    rw [if_pos (Or.inl hceq)]
  unfold merge_glyphs_from_font
  rw [if_neg (by decide : ¬((!is_truetype_font cexSource) = true))]
  dsimp only
  rw [hnorm, hlen]
  rw [if_neg (by decide : ¬(MAX_GLYPHS ≤ 65534))]
  rw [hg2c]
  rw [show (get_unicode_to_glyph_map (⟨1000, L, [(0x41, "A")],
      some [("A", simpleGlyph)], some []⟩ : Font)).map Prod.fst =
    [(0x41 : Nat)] from rfl]
  rw [hplan]
  rw [copyLoop]
  dsimp only
  rw [if_neg (by decide : ¬(MAX_GLYPHS ≤ 65534 + 0))]
  rw [hcgB]
  dsimp only
  rw [compLoop]
  rw [hcopyB]
  dsimp only
  rw [hmB, hsaddB]
  rw [registerCodepoints]
  dsimp only [add_cmap_entry]
  rw [registerCodepoints]
  rw [copyLoop]
  dsimp only
  rw [show dset 0x42 "B" [((0x41 : Nat), ("A" : String))] =
    [(0x41, "A"), (0x42, "B")] from by decide]

/-- Counterexample to C6 as stated: merging `cexSource` into the
65534-glyph target twice is NOT idempotent — the first call is cut short by
the glyph ceiling after accepting only `A`, so the second call still finds
`B` uncovered and returns (1, 1), not (0, 0). -/
theorem merge_idempotence_counterexample :
    ∃ r1 r2,
      merge_glyphs_from_font envTrivial cexSource bigTarget true true true =
        some r1 ∧
      merge_glyphs_from_font envTrivial r1.source r1.target true true true =
        some r2 ∧
      ¬(r2.glyphsAdded = 0 ∧ r2.codepointsAdded = 0) := by
  refine ⟨⟨cexSource,
      ⟨1000, bigOrder, [(0x41, "A")], some [("A", simpleGlyph)], some []⟩,
      1, 1, true⟩,
    ⟨cexSource,
      ⟨1000, bigOrder ++ ["B"], [(0x41, "A"), (0x42, "B")],
        some [("A", simpleGlyph), ("B", simpleGlyph)], some []⟩,
      1, 1, false⟩,
    cex_pass1 bigOrder bigOrder_length A_mem_bigOrder,
    cex_pass2 bigOrder bigOrder_length B_not_mem_bigOrder, ?_⟩
  intro hcon
  exact absurd hcon.1 (by decide)

/-- Source font for the idempotence witness: one glyph `B` mapped from
U+0042 (concrete test input). -/
def idemSource : Font :=
  ⟨1000, ["B"], [(0x42, "B")], some [("B", simpleGlyph)], some []⟩

theorem merge_idempotent_witness :
    ∃ r2, merge_glyphs_from_font envTrivial idemSource
        (⟨1000, [".notdef", "u0042"], [(0x42, "u0042")],
          some [("u0042", simpleGlyph)], some []⟩ : Font) true true false =
        some r2 ∧
      r2.glyphsAdded = 0 ∧ r2.codepointsAdded = 0 :=
  merge_idempotent envTrivial idemSource tinyTarget true true false
    ⟨idemSource,
      ⟨1000, [".notdef", "u0042"], [(0x42, "u0042")],
        some [("u0042", simpleGlyph)], some []⟩, 1, 1, false⟩
    (by decide) rfl

end Unito
